import Mathlib

/-!
Sieve of Eratosthenes: three prime-counting variants.

Shallow embedding of `src/Sieve_Of_Erastothenes/sieve_erastothenes.c`.

* A `bool` buffer is a `List Bool`; reading or writing an index outside the
  buffer is the fault `Fault.outOfBounds`.
* `long` values are natural numbers: every subtraction the sieves perform
  (`start_idx - window_start`, `window_end - window_start`, ...) has a
  non-negative result in C whenever the enclosing loop body is reached.
* `(long)sqrt(n)` is the integer floor square root `Nat.sqrt n`.
* A `for (i = a; i <= b; i++)` loop is a monadic left fold over
  `List.range' a (b + 1 - a)`.  Loops whose stride or bound is not a plain
  counter (`j += step`, `i * i <= limit`, `window_start += limit`) carry fuel;
  running out of fuel is the fault `Fault.outOfFuel` and stands for a loop that
  does not terminate.
* A `malloc`ed `long` array that is filled front to back (`primes`, `factor`,
  `marker`) is the list of its initialised entries; every write checks the
  allocated capacity.
* The definitions whose names end in `Checked` are the same code instrumented:
  every `long` result is compared with an optional upper bound (a value above
  the bound, a negative difference or a zero divisor is the fault
  `Fault.outOfRange`), and every call of `mark` is logged with its source
  line, the length of the buffer passed and its arguments.
-/

namespace Sieve

/-- Faults of the embedded C code. -/
inductive Fault where
  | outOfBounds
  | outOfFuel
  | outOfRange
  deriving DecidableEq, Repr

deriving instance DecidableEq for Except

/-- Read of `arr[i]`; a fault when `i` is outside the array. -/
def readAt {α : Type} (arr : List α) (i : Nat) : Except Fault α :=
  match arr[i]? with
  | some v => .ok v
  | none => .error .outOfBounds

/-- Loop of `mark`: `for (long j = i; j <= limit; j += step) composite[j] = true;`. -/
def markLoop : Nat → List Bool → Nat → Nat → Nat → Except Fault (List Bool)
  | 0, _, _, _, _ => .error .outOfFuel
  | fuel + 1, composite, j, step, limit =>
    if j ≤ limit then
      if j < composite.length then
        markLoop fuel (composite.set j true) (j + step) step limit
      else .error .outOfBounds
    else .ok composite

/-- Function `mark` (lines 9-16): returns the updated buffer and the value `i`.
With `step ≥ 1` the loop body runs at most `limit + 1 - i` times, so the fuel
`limit + 1 - i + 1` is exhausted only when the C loop does not terminate. -/
def mark (composite : List Bool) (i step limit : Nat) : Except Fault (List Bool × Nat) :=
  match markLoop (limit + 1 - i + 1) composite i step limit with
  | .ok composite => .ok (composite, i)
  | .error e => .error e

/-- Body of the loop at lines 27-33: `if (!composite[i]) mark(composite, i*i, i, n);`. -/
def unfriendlyMarkStep (n : Nat) (composite : List Bool) (i : Nat) :
    Except Fault (List Bool) :=
  match readAt composite i with
  | .error e => .error e
  | .ok c =>
    if !c then
      match mark composite (i * i) i n with
      | .ok r => .ok r.1
      | .error e => .error e
    else .ok composite

/-- Body of a counting loop: `if (!composite[i]) count++;`. -/
def countStep (composite : List Bool) (count : Nat) (i : Nat) : Except Fault Nat :=
  match readAt composite i with
  | .error e => .error e
  | .ok c => .ok (if !c then count + 1 else count)

/-- Function `cache_unfriendly_sieve` (lines 19-46). -/
def cache_unfriendly_sieve (n : Nat) : Except Fault Nat := do
  let count := 0
  let composite := List.replicate (n + 1) false
  let limit := Nat.sqrt n
  let composite ← (List.range' 2 (limit + 1 - 2)).foldlM (unfriendlyMarkStep n) composite
  let count ← (List.range' 2 (n + 1 - 2)).foldlM (countStep composite) count
  pure count

/-- Loop at lines 56-62 of `cache_friendly_sieve`:
`for (long i = 2; i * i <= limit; i++) if (!small_composite[i]) mark(small_composite, i*i, i, limit);`. -/
def smallSieveLoop : Nat → Nat → List Bool → Nat → Except Fault (List Bool)
  | 0, _, _, _ => .error .outOfFuel
  | fuel + 1, limit, small_composite, i =>
    if i * i ≤ limit then
      match unfriendlyMarkStep limit small_composite i with
      | .ok small_composite => smallSieveLoop fuel limit small_composite (i + 1)
      | .error e => .error e
    else .ok small_composite

/-- State of the collecting loop at lines 67-75: `primes`, `prime_count`, `count`. -/
structure Collect where
  primes : List Nat
  prime_count : Nat
  count : Nat
  deriving DecidableEq, Repr

/-- Body of the loop at lines 67-75; `primes` has `limit + 1` entries allocated. -/
def collectStep (limit : Nat) (small_composite : List Bool) (st : Collect) (i : Nat) :
    Except Fault Collect :=
  match readAt small_composite i with
  | .error e => .error e
  | .ok c =>
    if !c then
      if st.prime_count < limit + 1 then
        .ok { primes := st.primes ++ [i], prime_count := st.prime_count + 1,
              count := st.count + 1 }
      else .error .outOfBounds
    else .ok st

/-- Expression `((window_start + p - 1) / p) * p` of line 90 (`start_idx`). -/
def startIdx (window_start p : Nat) : Nat :=
  ((window_start + p - 1) / p) * p

/-- Body of the loop at lines 87-93: mark the multiples of `primes[i]` in the segment. -/
def segmentMarkStep (primes : List Nat) (window_start window_end : Nat)
    (segment : List Bool) (i : Nat) : Except Fault (List Bool) :=
  match readAt primes i with
  | .error e => .error e
  | .ok p =>
    let start_idx := startIdx window_start p
    match mark segment (start_idx - window_start) p (window_end - window_start) with
    | .ok r => .ok r.1
    | .error e => .error e

/-- Lines 84-93: the freshly allocated segment of the window
`[window_start, window_end]` after all base primes have been marked. -/
def friendlySegment (primes : List Nat) (prime_count window_start window_end : Nat) :
    Except Fault (List Bool) :=
  let segment_size := window_end - window_start + 1
  let segment := List.replicate segment_size false
  (List.range prime_count).foldlM (segmentMarkStep primes window_start window_end) segment

/-- Lines 84-101: the body of the window loop for the window
`[window_start, window_end]`, adding the window's primes to `count`. -/
def friendlyWindow (primes : List Nat) (prime_count count window_start window_end : Nat) :
    Except Fault Nat :=
  match friendlySegment primes prime_count window_start window_end with
  | .error e => .error e
  | .ok segment =>
    let segment_size := window_end - window_start + 1
    (List.range segment_size).foldlM (countStep segment) count

/-- Window end of lines 81-83: `window_start + limit - 1`, clamped to `n`. -/
def windowEnd (n limit window_start : Nat) : Nat :=
  let window_end := window_start + limit - 1
  if window_end > n then n else window_end

/-- Window loop at lines 79-102:
`for (long window_start = limit + 1; window_start <= n; window_start += limit)`. -/
def windowLoop : Nat → Nat → Nat → List Nat → Nat → Nat → Nat → Except Fault Nat
  | 0, _, _, _, _, _, _ => .error .outOfFuel
  | fuel + 1, n, limit, primes, prime_count, count, window_start =>
    if window_start ≤ n then
      match friendlyWindow primes prime_count count window_start
          (windowEnd n limit window_start) with
      | .ok count => windowLoop fuel n limit primes prime_count count (window_start + limit)
      | .error e => .error e
    else .ok count

/-- Lines 51-76 of `cache_friendly_sieve`: the small sieve up to `limit` and the
collection of the small primes. -/
def friendlyBase (n : Nat) : Except Fault Collect := do
  let limit := Nat.sqrt n
  let small_composite := List.replicate (limit + 1) false
  let small_composite ← smallSieveLoop (limit + 1) limit small_composite 2
  (List.range' 2 (limit + 1 - 2)).foldlM (collectStep limit small_composite)
    { primes := [], prime_count := 0, count := 0 }

/-- Function `cache_friendly_sieve` (lines 49-106).  With `limit ≥ 1` the window
loop runs at most `n` times, so the fuel `n + 1` is exhausted only when the C
loop does not terminate. -/
def cache_friendly_sieve (n : Nat) : Except Fault Nat := do
  let limit := Nat.sqrt n
  let st ← friendlyBase n
  windowLoop (n + 1) n limit st.primes st.prime_count st.count (limit + 1)

/-- State of the sequential base phase of `parallel_sieve` (lines 119-127). -/
structure Base where
  count : Nat
  n_factor : Nat
  factor : List Nat
  composite : List Bool
  deriving DecidableEq, Repr

/-- Body of the loop at lines 119-127; `factor` has `limit` entries allocated. -/
def baseStep (limit : Nat) (st : Base) (i : Nat) : Except Fault Base :=
  match readAt st.composite i with
  | .error e => .error e
  | .ok c =>
    if !c then
      match mark st.composite (i * i) i limit with
      | .error e => .error e
      | .ok r =>
        if st.n_factor < limit then
          .ok { count := st.count + 1, n_factor := st.n_factor + 1,
                factor := st.factor ++ [i], composite := r.1 }
        else .error .outOfBounds
    else .ok st

/-- Lines 111-127 of `parallel_sieve`: the sequential base-prime finder. -/
def parallelBase (n : Nat) : Except Fault Base :=
  let limit := Nat.sqrt n
  (List.range' 2 (limit + 1 - 2)).foldlM (baseStep limit)
    { count := 0, n_factor := 0, factor := [], composite := List.replicate (limit + 1) false }

/-- Expression `(window + f - 1) / f * f - window` of line 147. -/
def markerOffset (window f : Nat) : Nat :=
  (window + f - 1) / f * f - window

/-- Body of the loop at lines 144-148: `marker[k] = (window + f - 1) / f * f - window;`.
The table has `n_factor` entries allocated. -/
def markerStep (n_factor : Nat) (factor : List Nat) (window : Nat) (marker : List Nat)
    (k : Nat) : Except Fault (List Nat) :=
  match readAt factor k with
  | .error e => .error e
  | .ok f =>
    if k < n_factor then .ok (marker ++ [markerOffset window f])
    else .error .outOfBounds

/-- Body of the loop at lines 151-154:
`mark(local_composite, marker[k], factor[k], window_end - window);`. -/
def localMarkStep (factor marker : List Nat) (window window_end : Nat)
    (local_composite : List Bool) (k : Nat) : Except Fault (List Bool) :=
  match readAt marker k with
  | .error e => .error e
  | .ok m =>
    match readAt factor k with
    | .error e => .error e
    | .ok f =>
      match mark local_composite m f (window_end - window) with
      | .ok r => .ok r.1
      | .error e => .error e

/-- Lines 137-154: the worker's buffer of `limit + 1` flags, cleared by
`memset`, after the marker table has been recomputed and every base prime marked. -/
def parallelSegment (n limit n_factor : Nat) (factor : List Nat) (window : Nat) :
    Except Fault (List Bool) := do
  let local_composite := List.replicate (limit + 1) false
  let window_end := windowEnd n limit window
  let marker ← (List.range n_factor).foldlM (markerStep n_factor factor window) []
  (List.range n_factor).foldlM (localMarkStep factor marker window window_end) local_composite

/-- Lines 137-161: one iteration of the work-shared loop, adding the window's
primes to the worker's private `count`. -/
def parallelWindow (n limit n_factor : Nat) (factor : List Nat) (count window : Nat) :
    Except Fault Nat :=
  match parallelSegment n limit n_factor factor window with
  | .error e => .error e
  | .ok local_composite =>
    let window_end := windowEnd n limit window
    (List.range' 0 (window_end - window + 1)).foldlM (countStep local_composite) count

/-- Iteration space of the work-shared loop at line 135,
`for (long window = limit + 1; window <= n; window += limit)`: the trip count
is fixed before the loop starts. -/
def parallelWindows (n limit : Nat) : List Nat :=
  if limit + 1 ≤ n then List.range' (limit + 1) ((n - (limit + 1)) / limit + 1) limit
  else []

/-- One worker: its private copy of `count` starts at 0 and accumulates the
windows assigned to it, in the order given. -/
def workerCount (n limit n_factor : Nat) (factor : List Nat) (windows : List Nat) :
    Except Fault Nat :=
  windows.foldlM (parallelWindow n limit n_factor factor) 0

/-- Lines 129-166 under a given schedule (one list of windows per worker):
`reduction(+ : count)` adds every worker's private count to the original `count`. -/
def parallelReduce (n limit : Nat) (base : Base) (schedule : List (List Nat)) :
    Except Fault Nat :=
  schedule.foldlM
    (fun total windows =>
      match workerCount n limit base.n_factor base.factor windows with
      | .ok c => .ok (total + c)
      | .error e => .error e)
    base.count

/-- Function `parallel_sieve` under a given schedule. -/
def parallelSieveWith (n : Nat) (schedule : List (List Nat)) : Except Fault Nat := do
  let limit := Nat.sqrt n
  let base ← parallelBase n
  parallelReduce n limit base schedule

/-- Function `parallel_sieve` (lines 109-171): the base-phase count plus the
per-window counts of the windows `limit + 1, 2 * limit + 1, ... ≤ n`, each
window being its own unit of work. -/
def parallel_sieve (n : Nat) : Except Fault Nat :=
  parallelSieveWith n ((parallelWindows n (Nat.sqrt n)).map (fun w => [w]))


/-- Invariant of the base sieving loops on a buffer with indices `0..L`, before
candidate `k` is visited: index `x` is flagged exactly when some prime `p < k`
divides `x` and `p * p ≤ x`. -/
def SieveInv (L k : Nat) (buf : List Bool) : Prop :=
  buf.length = L + 1 ∧
    ∀ x, x ≤ L → ∃ b, buf[x]? = some b ∧
      (b = true ↔ ∃ p, Nat.Prime p ∧ p < k ∧ p ∣ x ∧ p * p ≤ x)

/-- Number of primes among `a, a + 1, ..., a + len - 1`. -/
def primesFrom (a len : Nat) : Nat :=
  (List.range' a len).countP (fun x => decide (Nat.Prime x))

/-- The primes among `a, a + 1, ..., a + len - 1`, in increasing order. -/
def primeList (a len : Nat) : List Nat :=
  (List.range' a len).filter (fun x => decide (Nat.Prime x))

/-- Number of `y` among `s, s + 1, ..., s + len - 1` that no member of `ps` divides. -/
def survivors (ps : List Nat) (s len : Nat) : Nat :=
  (List.range' s len).countP (fun y => !(ps.any (fun p => decide (p ∣ y))))

/-- Number of unflagged positions the window starting at `w` contributes when
it is sieved with the divisors `ps`. -/
def windowSurvivors (n limit : Nat) (ps : List Nat) (w : Nat) : Nat :=
  survivors ps w (windowEnd n limit w - w + 1)

/-- Consecutive non-empty windows `[s, e]`: the first starts at `start`, each
next one starts right after the previous end, and the last ends at `n`. -/
def ConsecutiveWindows (start n : Nat) : List (Nat × Nat) → Prop
  | [] => start = n + 1
  | w :: rest => w.1 = start ∧ w.1 ≤ w.2 ∧ w.2 ≤ n ∧ ConsecutiveWindows (w.2 + 1) n rest

/-- Largest value of a signed 64-bit `long`. -/
def LONG_MAX : Nat := 2 ^ 63 - 1

/-- One call of `mark`: the source line of the call, the number of entries of
the buffer passed, and the three `long` arguments. -/
structure MarkCall where
  line : Nat
  len : Nat
  i : Nat
  step : Nat
  limit : Nat
  deriving DecidableEq, Repr

/-- A `long` result that must not exceed the bound (no bound: unbounded integers). -/
def chk (bound : Option Nat) (x : Nat) : Except Fault Nat :=
  match bound with
  | none => .ok x
  | some m => if x ≤ m then .ok x else .error .outOfRange

/-- A `long` difference `a - b` that must not be negative. -/
def chkSub (a b : Nat) : Except Fault Nat :=
  if b ≤ a then .ok (a - b) else .error .outOfRange

/-- A `long` quotient `a / b` with a non-zero divisor. -/
def chkDiv (a b : Nat) : Except Fault Nat :=
  if b = 0 then .error .outOfRange else .ok (a / b)

/-- Increment `i++` of a loop counter at the end of a loop body that produced `x`. -/
def advance {α : Type} (bound : Option Nat) (i : Nat) (x : α) : Except Fault α :=
  match chk bound (i + 1) with
  | .ok _ => .ok x
  | .error e => .error e

/-- Loop of `mark` with the increment `j += step` checked. -/
def markLoopChecked (bound : Option Nat) :
    Nat → List Bool → Nat → Nat → Nat → Except Fault (List Bool)
  | 0, _, _, _, _ => .error .outOfFuel
  | fuel + 1, composite, j, step, limit =>
    if j ≤ limit then
      if j < composite.length then
        match chk bound (j + step) with
        | .ok j' => markLoopChecked bound fuel (composite.set j true) j' step limit
        | .error e => .error e
      else .error .outOfBounds
    else .ok composite

/-- Function `mark` called from source line `line`: the updated buffer and the
log entry of the call. -/
def markChecked (bound : Option Nat) (line : Nat) (composite : List Bool)
    (i step limit : Nat) : Except Fault (List Bool × List MarkCall) :=
  match markLoopChecked bound (limit + 1 - i + 1) composite i step limit with
  | .ok out =>
    .ok (out, [{ line := line, len := composite.length, i := i, step := step,
                 limit := limit }])
  | .error e => .error e

/-- Body of the loops at lines 27-33 and 56-62:
`if (!composite[i]) mark(composite, i*i, i, n);` followed by `i++`. -/
def sieveStepChecked (bound : Option Nat) (line n : Nat)
    (st : List Bool × List MarkCall) (i : Nat) : Except Fault (List Bool × List MarkCall) :=
  match readAt st.1 i with
  | .error e => .error e
  | .ok c =>
    if !c then
      match chk bound (i * i) with
      | .error e => .error e
      | .ok sq =>
        match markChecked bound line st.1 sq i n with
        | .ok r => advance bound i (r.1, st.2 ++ r.2)
        | .error e => .error e
    else advance bound i st

/-- Body of a counting loop: `if (!composite[i]) count++;` followed by `i++`. -/
def countStepChecked (bound : Option Nat) (composite : List Bool) (count : Nat) (i : Nat) :
    Except Fault Nat :=
  match readAt composite i with
  | .error e => .error e
  | .ok c =>
    if !c then
      match chk bound (count + 1) with
      | .ok count => advance bound i count
      | .error e => .error e
    else advance bound i count

/-- Function `cache_unfriendly_sieve`, instrumented: the count and the log of
the calls of `mark`. -/
def cache_unfriendly_sieveChecked (bound : Option Nat) (n : Nat) :
    Except Fault (Nat × List MarkCall) := do
  let size ← chk bound (n + 1)
  let composite := List.replicate size false
  let limit := Nat.sqrt n
  let st ← (List.range' 2 (limit + 1 - 2)).foldlM (sieveStepChecked bound 31 n) (composite, [])
  let count ← (List.range' 2 (n + 1 - 2)).foldlM (countStepChecked bound st.1) 0
  pure (count, st.2)

/-- Loop at lines 56-62, instrumented; the test `i * i <= limit` is checked too. -/
def smallSieveLoopChecked (bound : Option Nat) :
    Nat → Nat → List Bool × List MarkCall → Nat → Except Fault (List Bool × List MarkCall)
  | 0, _, _, _ => .error .outOfFuel
  | fuel + 1, limit, st, i =>
    match chk bound (i * i) with
    | .error e => .error e
    | .ok sq =>
      if sq ≤ limit then
        match sieveStepChecked bound 60 limit st i with
        | .ok st => smallSieveLoopChecked bound fuel limit st (i + 1)
        | .error e => .error e
      else .ok st

/-- Body of the loop at lines 67-75, instrumented. -/
def collectStepChecked (bound : Option Nat) (limit : Nat) (small_composite : List Bool)
    (st : Collect) (i : Nat) : Except Fault Collect :=
  match readAt small_composite i with
  | .error e => .error e
  | .ok c =>
    if !c then
      if st.prime_count < limit + 1 then
        match chk bound (st.count + 1) with
        | .error e => .error e
        | .ok count =>
          match chk bound (st.prime_count + 1) with
          | .error e => .error e
          | .ok prime_count =>
            advance bound i
              { primes := st.primes ++ [i], prime_count := prime_count, count := count }
      else .error .outOfBounds
    else advance bound i st

/-- Lines 51-76 of `cache_friendly_sieve`, instrumented. -/
def friendlyBaseChecked (bound : Option Nat) (n : Nat) :
    Except Fault (Collect × List MarkCall) := do
  let limit := Nat.sqrt n
  let size ← chk bound (limit + 1)
  let small_composite := List.replicate size false
  let st ← smallSieveLoopChecked bound (limit + 1) limit (small_composite, []) 2
  let c ← (List.range' 2 (limit + 1 - 2)).foldlM (collectStepChecked bound limit st.1)
    { primes := [], prime_count := 0, count := 0 }
  pure (c, st.2)

/-- Expression `((window_start + p - 1) / p) * p`, every intermediate result checked. -/
def startIdxChecked (bound : Option Nat) (window_start p : Nat) : Except Fault Nat := do
  let a ← chk bound (window_start + p)
  let b ← chkSub a 1
  let q ← chkDiv b p
  chk bound (q * p)

/-- Body of the loop at lines 87-93, instrumented. -/
def segmentMarkStepChecked (bound : Option Nat) (primes : List Nat)
    (window_start window_end : Nat) (st : List Bool × List MarkCall) (i : Nat) :
    Except Fault (List Bool × List MarkCall) := do
  let p ← readAt primes i
  let start_idx ← startIdxChecked bound window_start p
  let off ← chkSub start_idx window_start
  let lim ← chkSub window_end window_start
  let r ← markChecked bound 92 st.1 off p lim
  advance bound i (r.1, st.2 ++ r.2)

/-- Lines 84-93, instrumented. -/
def friendlySegmentChecked (bound : Option Nat) (primes : List Nat)
    (prime_count window_start window_end : Nat) :
    Except Fault (List Bool × List MarkCall) := do
  let d ← chkSub window_end window_start
  let segment_size ← chk bound (d + 1)
  let segment := List.replicate segment_size false
  (List.range prime_count).foldlM
    (segmentMarkStepChecked bound primes window_start window_end) (segment, [])

/-- Lines 84-101, instrumented. -/
def friendlyWindowChecked (bound : Option Nat) (primes : List Nat)
    (prime_count count window_start window_end : Nat) :
    Except Fault (Nat × List MarkCall) := do
  let st ← friendlySegmentChecked bound primes prime_count window_start window_end
  let segment_size := window_end - window_start + 1
  let count ← (List.range segment_size).foldlM (countStepChecked bound st.1) count
  pure (count, st.2)

/-- Window end of lines 81-83, every intermediate result checked. -/
def windowEndChecked (bound : Option Nat) (n limit window_start : Nat) :
    Except Fault Nat := do
  let a ← chk bound (window_start + limit)
  let window_end ← chkSub a 1
  pure (if window_end > n then n else window_end)

/-- Window loop at lines 79-102, instrumented; the increment
`window_start += limit` is checked. -/
def windowLoopChecked (bound : Option Nat) :
    Nat → Nat → Nat → List Nat → Nat → Nat × List MarkCall → Nat →
      Except Fault (Nat × List MarkCall)
  | 0, _, _, _, _, _, _ => .error .outOfFuel
  | fuel + 1, n, limit, primes, prime_count, st, window_start =>
    if window_start ≤ n then
      match windowEndChecked bound n limit window_start with
      | .error e => .error e
      | .ok window_end =>
        match friendlyWindowChecked bound primes prime_count st.1 window_start
            window_end with
        | .error e => .error e
        | .ok r =>
          match chk bound (window_start + limit) with
          | .error e => .error e
          | .ok window_start =>
            windowLoopChecked bound fuel n limit primes prime_count (r.1, st.2 ++ r.2)
              window_start
    else .ok st

/-- Function `cache_friendly_sieve`, instrumented: the count and the log of the
calls of `mark`. -/
def cache_friendly_sieveChecked (bound : Option Nat) (n : Nat) :
    Except Fault (Nat × List MarkCall) := do
  let limit := Nat.sqrt n
  let b ← friendlyBaseChecked bound n
  let start ← chk bound (limit + 1)
  windowLoopChecked bound (n + 1) n limit b.1.primes b.1.prime_count (b.1.count, b.2) start

/-- Body of the loop at lines 119-127, instrumented. -/
def baseStepChecked (bound : Option Nat) (limit : Nat) (st : Base × List MarkCall)
    (i : Nat) : Except Fault (Base × List MarkCall) :=
  match readAt st.1.composite i with
  | .error e => .error e
  | .ok c =>
    if !c then
      match chk bound (st.1.count + 1) with
      | .error e => .error e
      | .ok count =>
        match chk bound (i * i) with
        | .error e => .error e
        | .ok sq =>
          match markChecked bound 124 st.1.composite sq i limit with
          | .error e => .error e
          | .ok r =>
            if st.1.n_factor < limit then
              match chk bound (st.1.n_factor + 1) with
              | .error e => .error e
              | .ok n_factor =>
                advance bound i
                  ({ count := count, n_factor := n_factor, factor := st.1.factor ++ [i],
                     composite := r.1 }, st.2 ++ r.2)
            else .error .outOfBounds
    else advance bound i st

/-- Lines 111-127 of `parallel_sieve`, instrumented. -/
def parallelBaseChecked (bound : Option Nat) (n : Nat) :
    Except Fault (Base × List MarkCall) := do
  let limit := Nat.sqrt n
  let size ← chk bound (limit + 1)
  (List.range' 2 (limit + 1 - 2)).foldlM (baseStepChecked bound limit)
    ({ count := 0, n_factor := 0, factor := [],
       composite := List.replicate size false }, [])

/-- Body of the loop at lines 144-148, instrumented. -/
def markerStepChecked (bound : Option Nat) (n_factor : Nat) (factor : List Nat)
    (window : Nat) (marker : List Nat) (k : Nat) : Except Fault (List Nat) := do
  let f ← readAt factor k
  let start ← startIdxChecked bound window f
  let off ← chkSub start window
  if k < n_factor then advance bound k (marker ++ [off])
  else .error .outOfBounds

/-- Body of the loop at lines 151-154, instrumented. -/
def localMarkStepChecked (bound : Option Nat) (factor marker : List Nat)
    (window window_end : Nat) (st : List Bool × List MarkCall) (k : Nat) :
    Except Fault (List Bool × List MarkCall) := do
  let m ← readAt marker k
  let f ← readAt factor k
  let lim ← chkSub window_end window
  let r ← markChecked bound 153 st.1 m f lim
  advance bound k (r.1, st.2 ++ r.2)

/-- Lines 137-161, instrumented: one iteration of the work-shared loop. -/
def parallelWindowChecked (bound : Option Nat) (n limit n_factor : Nat)
    (factor : List Nat) (st : Nat × List MarkCall) (window : Nat) :
    Except Fault (Nat × List MarkCall) := do
  let size ← chk bound (limit + 1)
  let local_composite := List.replicate size false
  let window_end ← windowEndChecked bound n limit window
  let marker ← (List.range n_factor).foldlM (markerStepChecked bound n_factor factor window) []
  let seg ← (List.range n_factor).foldlM
    (localMarkStepChecked bound factor marker window window_end) (local_composite, [])
  let d ← chkSub window_end window
  let count ← (List.range' 0 (d + 1)).foldlM (countStepChecked bound seg.1) st.1
  let _ ← chk bound (window + limit)
  pure (count, st.2 ++ seg.2)

/-- Function `parallel_sieve`, instrumented, the windows taken in order: the
count and the log of the calls of `mark`. -/
def parallel_sieveChecked (bound : Option Nat) (n : Nat) :
    Except Fault (Nat × List MarkCall) := do
  let limit := Nat.sqrt n
  let b ← parallelBaseChecked bound n
  (parallelWindows n limit).foldlM
    (parallelWindowChecked bound n limit b.1.n_factor b.1.factor) (b.1.count, b.2)

/-- Every value up to `m` passes the check. -/
def Fits (bound : Option Nat) (m : Nat) : Prop :=
  ∀ b, bound = some b → m ≤ b

/-- What holds of a logged call of `mark`, by the source line of the call, for
the range bound `n` and `limit = floor(sqrt n)`. -/
def CallOK (n limit : Nat) (c : MarkCall) : Prop :=
  2 ≤ c.step ∧ c.limit + 1 ≤ c.len ∧
  ((c.line = 31 ∧ c.len = n + 1 ∧ c.limit = n ∧ c.i = c.step * c.step ∧ c.i ≤ n) ∨
   (c.line = 60 ∧ c.len = limit + 1 ∧ c.limit = limit ∧ c.i = c.step * c.step ∧
      c.i ≤ limit) ∨
   (c.line = 92 ∧ c.len = c.limit + 1 ∧ c.limit + 1 ≤ limit ∧ c.i < c.step) ∨
   (c.line = 124 ∧ c.len = limit + 1 ∧ c.limit = limit ∧ c.i = c.step * c.step) ∨
   (c.line = 153 ∧ c.len = limit + 1 ∧ c.limit + 1 ≤ limit ∧ c.i < c.step))

theorem markLoop_spec (step limit : Nat) (hstep : 1 ≤ step) :
    ∀ (fuel : Nat) (comp : List Bool) (j : Nat), limit < comp.length → limit + 1 - j < fuel →
      ∃ out, markLoop fuel comp j step limit = .ok out ∧ out.length = comp.length ∧
        ∀ x, out[x]? = if j ≤ x ∧ x ≤ limit ∧ step ∣ x - j then some true else comp[x]? := by
  intro fuel
  induction fuel with
  | zero => intro comp j _ h; omega
  | succ fuel ih =>
    intro comp j hlen hfuel
    unfold markLoop
    by_cases hj : j ≤ limit
    · have hjl : j < comp.length := by omega
      simp only [hj, hjl, if_true]
      obtain ⟨out, hout, hl, hx⟩ := ih (comp.set j true) (j + step)
        (by simpa using hlen) (by omega)
      refine ⟨out, hout, by simpa using hl, ?_⟩
      intro x
      rw [hx x]
      by_cases hxj : x = j
      · subst hxj
        have h1 : ¬ (x + step ≤ x) := by omega
        simp [h1, hj, hjl]
      · have hiff : (j + step ≤ x ∧ x ≤ limit ∧ step ∣ x - (j + step)) ↔
            (j ≤ x ∧ x ≤ limit ∧ step ∣ x - j) := by
          constructor
          · rintro ⟨h1, h2, h3⟩
            refine ⟨by omega, h2, ?_⟩
            have : x - j = (x - (j + step)) + step := by omega
            rw [this]
            exact Dvd.dvd.add h3 (dvd_refl _)
          · rintro ⟨h1, h2, c, hc⟩
            have hc0 : c ≠ 0 := by
              rintro rfl
              simp at hc
              omega
            obtain ⟨d, rfl⟩ : ∃ d, c = d + 1 := ⟨c - 1, by omega⟩
            have hm : step * (d + 1) = step * d + step := by ring
            rw [hm] at hc
            exact ⟨by omega, h2, d, by omega⟩
        have hset : (comp.set j true)[x]? = comp[x]? := by
          rw [List.getElem?_set]
          simp [Ne.symm hxj]
        simp only [hiff, hset]
    · simp only [hj, if_false]
      refine ⟨comp, rfl, rfl, ?_⟩
      intro x
      have : ¬ (j ≤ x ∧ x ≤ limit ∧ step ∣ x - j) := by
        rintro ⟨h1, h2, _⟩; omega
      simp [this]

theorem mark_spec (comp : List Bool) (i step limit : Nat) (hstep : 1 ≤ step)
    (hlen : limit < comp.length) :
    ∃ out, mark comp i step limit = .ok (out, i) ∧ out.length = comp.length ∧
      ∀ x, out[x]? = if i ≤ x ∧ x ≤ limit ∧ step ∣ x - i then some true else comp[x]? := by
  obtain ⟨out, h1, h2, h3⟩ :=
    markLoop_spec step limit hstep (limit + 1 - i + 1) comp i hlen (by omega)
  exact ⟨out, by simp [mark, h1], h2, h3⟩


theorem foldlM_range'_inv {σ : Type} (body : σ → Nat → Except Fault σ) (P : Nat → σ → Prop)
    (a : Nat) : ∀ (len : Nat) (s0 : σ), P a s0 →
      (∀ k s, a ≤ k → k < a + len → P k s → ∃ s', body s k = .ok s' ∧ P (k + 1) s') →
      ∃ s, (List.range' a len).foldlM body s0 = .ok s ∧ P (a + len) s := by
  intro len
  induction len with
  | zero => intro s0 h0 _; exact ⟨s0, rfl, h0⟩
  | succ len ih =>
    intro s0 h0 hstep
    obtain ⟨s, hs, hP⟩ := ih s0 h0 (fun k s hk1 hk2 hPk => hstep k s hk1 (by omega) hPk)
    obtain ⟨s', hs', hP'⟩ := hstep (a + len) s (by omega) (by omega) hP
    refine ⟨s', ?_, hP'⟩
    rw [List.range'_concat, List.foldlM_append, hs]
    simp [bind, Except.bind, hs', pure, Except.pure]

theorem readAt_of_getElem? {α : Type} (arr : List α) (i : Nat) (v : α)
    (h : arr[i]? = some v) : readAt arr i = .ok v := by
  simp [readAt, h]

theorem sieveInv_init (L : Nat) : SieveInv L 2 (List.replicate (L + 1) false) := by
  refine ⟨by simp, ?_⟩
  intro x hx
  refine ⟨false, ?_, ?_⟩
  · rw [List.getElem?_replicate]; simp; omega
  · simp only [Bool.false_eq_true, false_iff, not_exists]
    rintro p ⟨hp, hlt, -, -⟩
    have := hp.two_le
    omega

theorem sieveInv_read (L k : Nat) (buf : List Bool) (h : SieveInv L k buf) (hk2 : 2 ≤ k)
    (hkL : k ≤ L) : readAt buf k = .ok (!decide (Nat.Prime k)) := by
  obtain ⟨b, hb, hiff⟩ := h.2 k hkL
  apply readAt_of_getElem?
  rw [hb]
  congr 1
  by_cases hp : Nat.Prime k
  · have : ¬ (b = true) := by
      rw [hiff]
      rintro ⟨p, hpp, hlt, hdvd, -⟩
      rcases (Nat.dvd_prime hp).1 hdvd with h1 | h1
      · exact hpp.one_lt.ne' h1
      · omega
    simp [hp]
    simpa using this
  · have : b = true := by
      rw [hiff]
      have hsq := Nat.minFac_sq_le_self (by omega : 0 < k) hp
      have hmp := Nat.minFac_prime (by omega : k ≠ 1)
      refine ⟨k.minFac, hmp, ?_, Nat.minFac_dvd k, by nlinarith [hsq]⟩
      have h2 := hmp.two_le
      nlinarith [hsq]
    simp [hp, this]

theorem sieveInv_skip (L k : Nat) (buf : List Bool) (h : SieveInv L k buf)
    (hnp : ¬ Nat.Prime k) : SieveInv L (k + 1) buf := by
  refine ⟨h.1, ?_⟩
  intro x hx
  obtain ⟨b, hb, hiff⟩ := h.2 x hx
  refine ⟨b, hb, ?_⟩
  rw [hiff]
  constructor
  · rintro ⟨p, h1, h2, h3, h4⟩
    exact ⟨p, h1, by omega, h3, h4⟩
  · rintro ⟨p, h1, h2, h3, h4⟩
    refine ⟨p, h1, ?_, h3, h4⟩
    rcases Nat.lt_succ_iff_lt_or_eq.1 h2 with h5 | h5
    · exact h5
    · subst h5; exact absurd h1 hnp

theorem sieveInv_mark (L k : Nat) (buf : List Bool) (h : SieveInv L k buf)
    (hp : Nat.Prime k) :
    ∃ out, mark buf (k * k) k L = .ok (out, k * k) ∧ SieveInv L (k + 1) out := by
  obtain ⟨out, hout, hlen, hx⟩ :=
    mark_spec buf (k * k) k L hp.one_lt.le (by rw [h.1]; omega)
  refine ⟨out, hout, by rw [hlen, h.1], ?_⟩
  intro x hxL
  obtain ⟨b, hb, hiff⟩ := h.2 x hxL
  have hdiv : k * k ≤ x → (k ∣ x - k * k ↔ k ∣ x) := by
    intro hle
    constructor
    · intro hd
      have : x = (x - k * k) + k * k := by omega
      rw [this]
      exact Dvd.dvd.add hd (Dvd.intro _ rfl)
    · intro hd
      exact Nat.dvd_sub' hd (Dvd.intro _ rfl)
  by_cases hc : k * k ≤ x ∧ x ≤ L ∧ k ∣ x - k * k
  · refine ⟨true, by rw [hx x]; simp [hc], ?_⟩
    simp only [true_iff]
    exact ⟨k, hp, by omega, (hdiv hc.1).1 hc.2.2, hc.1⟩
  · refine ⟨b, by rw [hx x]; simp [hc, hb], ?_⟩
    rw [hiff]
    constructor
    · rintro ⟨p, h1, h2, h3, h4⟩
      exact ⟨p, h1, by omega, h3, h4⟩
    · rintro ⟨p, h1, h2, h3, h4⟩
      refine ⟨p, h1, ?_, h3, h4⟩
      rcases Nat.lt_succ_iff_lt_or_eq.1 h2 with h5 | h5
      · exact h5
      · subst h5
        exact absurd ⟨h4, hxL, (hdiv h4).2 h3⟩ hc

theorem sieveInv_final (L k : Nat) (buf : List Bool) (h : SieveInv L k buf)
    (hk : L < k * k) (x : Nat) (hx2 : 2 ≤ x) (hxL : x ≤ L) :
    buf[x]? = some (!decide (Nat.Prime x)) := by
  obtain ⟨b, hb, hiff⟩ := h.2 x hxL
  rw [hb]
  congr 1
  by_cases hp : Nat.Prime x
  · have : ¬ (b = true) := by
      rw [hiff]
      rintro ⟨p, hpp, -, hdvd, hsq⟩
      rcases (Nat.dvd_prime hp).1 hdvd with h1 | h1
      · exact hpp.one_lt.ne' h1
      · subst h1
        have := hpp.two_le
        nlinarith
    simp [hp]
    simpa using this
  · have : b = true := by
      rw [hiff]
      have hsq := Nat.minFac_sq_le_self (by omega : 0 < x) hp
      have hmp := Nat.minFac_prime (by omega : x ≠ 1)
      refine ⟨x.minFac, hmp, ?_, Nat.minFac_dvd x, by nlinarith [hsq]⟩
      by_contra hge
      push_neg at hge
      have : k * k ≤ x.minFac * x.minFac := Nat.mul_le_mul hge hge
      nlinarith [hsq]
    simp [hp, this]

theorem unfriendlyMarkStep_inv (L k : Nat) (buf : List Bool) (h : SieveInv L k buf)
    (hk2 : 2 ≤ k) (hkL : k ≤ L) :
    ∃ out, unfriendlyMarkStep L buf k = .ok out ∧ SieveInv L (k + 1) out := by
  unfold unfriendlyMarkStep
  rw [sieveInv_read L k buf h hk2 hkL]
  by_cases hp : Nat.Prime k
  · obtain ⟨out, hout, hinv⟩ := sieveInv_mark L k buf h hp
    exact ⟨out, by simp [hp, hout], hinv⟩
  · exact ⟨buf, by simp [hp], sieveInv_skip L k buf h hp⟩


theorem countLoop_spec (buf : List Bool) (q : Nat → Bool) (s a len c0 : Nat)
    (h : ∀ x, a ≤ x → x < a + len → buf[x]? = some (!(q (s + x)))) :
    (List.range' a len).foldlM (countStep buf) c0 =
      .ok (c0 + (List.range' (s + a) len).countP q) := by
  obtain ⟨c, hc, hP⟩ := foldlM_range'_inv (countStep buf)
    (fun k c => c = c0 + (List.range' (s + a) (k - a)).countP q) a len c0 (by simp)
    (by
      intro k c hk1 hk2 hPk
      refine ⟨if !(!(q (s + k))) then c + 1 else c, ?_, ?_⟩
      · simp [countStep, readAt, h k hk1 hk2]
      · show _ = c0 + (List.range' (s + a) (k + 1 - a)).countP q
        have hka : k + 1 - a = (k - a) + 1 := by omega
        have hsk : s + a + 1 * (k - a) = s + k := by omega
        rw [hka, List.range'_concat, List.countP_append, hsk, hPk]
        by_cases hq : q (s + k) <;> simp [hq, List.countP_cons, Nat.add_assoc])
  rw [hc, hP]
  simp

theorem primesFrom_add (a l1 l2 : Nat) :
    primesFrom a (l1 + l2) = primesFrom a l1 + primesFrom (a + l1) l2 := by
  unfold primesFrom
  have := List.range'_append a l1 l2 1
  rw [Nat.add_comm l2 l1, Nat.one_mul] at this
  rw [← this, List.countP_append]

theorem primesFrom_zero (a : Nat) : primesFrom a 0 = 0 := by
  simp [primesFrom]

theorem primesFrom_succ (a len : Nat) :
    primesFrom a (len + 1) = primesFrom a len + if Nat.Prime (a + len) then 1 else 0 := by
  rw [primesFrom_add]
  congr 1
  by_cases hp : Nat.Prime (a + len) <;> simp [primesFrom, hp]

theorem primesFrom_le_len (a len : Nat) : primesFrom a len ≤ len := by
  unfold primesFrom
  exact (List.countP_le_length _).trans (by simp)

theorem primesFrom_eq_card (a len : Nat) :
    primesFrom a len = ((Finset.Ico a (a + len)).filter Nat.Prime).card := by
  induction len with
  | zero => simp [primesFrom_zero]
  | succ len ih =>
    rw [primesFrom_succ, ih]
    have hIco : Finset.Ico a (a + (len + 1)) = insert (a + len) (Finset.Ico a (a + len)) := by
      ext x; simp only [Finset.mem_Ico, Finset.mem_insert]; omega
    rw [hIco, Finset.filter_insert]
    by_cases hp : Nat.Prime (a + len)
    · simp only [hp, if_true]
      rw [Finset.card_insert_of_not_mem]
      simp
    · simp [hp]

theorem primesFrom_two (n : Nat) :
    primesFrom 2 (n + 1 - 2) = ((Finset.Icc 2 n).filter Nat.Prime).card := by
  have hI : Finset.Ico 2 (2 + (n + 1 - 2)) = Finset.Icc 2 n := by
    ext x
    simp only [Finset.mem_Ico, Finset.mem_Icc]
    omega
  rw [primesFrom_eq_card, hI]

theorem primesFrom_two_mono (n m : Nat) (h : n ≤ m) :
    primesFrom 2 (n + 1 - 2) ≤ primesFrom 2 (m + 1 - 2) := by
  have : m + 1 - 2 = (n + 1 - 2) + (m - n - (if n < 1 then 1 - n - (1 - m) else 0)) := by
    split_ifs <;> omega
  rw [this, primesFrom_add]
  exact Nat.le_add_right _ _

theorem unfriendly_marking (n : Nat) :
    ∃ buf, (List.range' 2 (Nat.sqrt n + 1 - 2)).foldlM (unfriendlyMarkStep n)
        (List.replicate (n + 1) false) = .ok buf ∧
      ∀ x, 2 ≤ x → x ≤ n → buf[x]? = some (!decide (Nat.Prime x)) := by
  obtain ⟨buf, hbuf, hinv⟩ := foldlM_range'_inv (unfriendlyMarkStep n)
    (fun k buf => SieveInv n k buf) 2 (Nat.sqrt n + 1 - 2) _ (sieveInv_init n)
    (by
      intro k buf hk1 hk2 hPk
      have := Nat.sqrt_le_self n
      exact unfriendlyMarkStep_inv n k buf hPk hk1 (by omega))
  refine ⟨buf, hbuf, ?_⟩
  intro x hx2 hxn
  refine sieveInv_final n _ buf hinv ?_ x hx2 hxn
  have h1 := Nat.lt_succ_sqrt n
  have h2 : Nat.sqrt n + 1 ≤ 2 + (Nat.sqrt n + 1 - 2) := by omega
  calc n < (Nat.sqrt n + 1) * (Nat.sqrt n + 1) := h1
    _ ≤ _ := Nat.mul_le_mul h2 h2

theorem cache_unfriendly_sieve_eq (n : Nat) :
    cache_unfriendly_sieve n = .ok (primesFrom 2 (n + 1 - 2)) := by
  obtain ⟨buf, hbuf, hx⟩ := unfriendly_marking n
  unfold cache_unfriendly_sieve
  simp only [bind, Except.bind, hbuf]
  rw [countLoop_spec buf (fun x => decide (Nat.Prime x)) 0 2 (n + 1 - 2) 0
    (by intro x h1 h2; simpa using hx x h1 (by omega))]
  simp [primesFrom, pure, Except.pure]


theorem smallSieveLoop_spec (limit : Nat) :
    ∀ (fuel : Nat) (buf : List Bool) (i : Nat), SieveInv limit i buf → 2 ≤ i →
      limit + 1 - i < fuel →
      ∃ out k, smallSieveLoop fuel limit buf i = .ok out ∧ SieveInv limit k out ∧
        limit < k * k := by
  intro fuel
  induction fuel with
  | zero => intro buf i _ _ h; omega
  | succ fuel ih =>
    intro buf i hinv hi hfuel
    unfold smallSieveLoop
    by_cases hc : i * i ≤ limit
    · have hil : i ≤ limit := by nlinarith
      obtain ⟨out, hout, hinv'⟩ := unfriendlyMarkStep_inv limit i buf hinv hi hil
      obtain ⟨out', k, h1, h2, h3⟩ := ih out (i + 1) hinv' (by omega) (by omega)
      exact ⟨out', k, by simp only [hc, if_true, hout]; exact h1, h2, h3⟩
    · exact ⟨buf, i, by simp [hc], hinv, by omega⟩

theorem primeList_succ (a len : Nat) :
    primeList a (len + 1) =
      primeList a len ++ (if Nat.Prime (a + len) then [a + len] else []) := by
  unfold primeList
  rw [List.range'_concat, List.filter_append]
  by_cases hp : Nat.Prime (a + len) <;> simp [hp]

theorem primeList_length (a len : Nat) : (primeList a len).length = primesFrom a len := by
  unfold primeList primesFrom
  rw [List.countP_eq_length_filter]

theorem mem_primeList (a len p : Nat) :
    p ∈ primeList a len ↔ Nat.Prime p ∧ a ≤ p ∧ p < a + len := by
  unfold primeList
  simp only [List.mem_filter, List.mem_range'_1, decide_eq_true_eq]
  tauto

theorem collectLoop_spec (limit : Nat) (buf : List Bool)
    (h : ∀ x, 2 ≤ x → x ≤ limit → buf[x]? = some (!decide (Nat.Prime x))) :
    (List.range' 2 (limit + 1 - 2)).foldlM (collectStep limit buf)
        { primes := [], prime_count := 0, count := 0 } =
      .ok { primes := primeList 2 (limit + 1 - 2),
            prime_count := primesFrom 2 (limit + 1 - 2),
            count := primesFrom 2 (limit + 1 - 2) } := by
  obtain ⟨st, hst, hP⟩ := foldlM_range'_inv (collectStep limit buf)
    (fun k st => st = { primes := primeList 2 (k - 2), prime_count := primesFrom 2 (k - 2),
                        count := primesFrom 2 (k - 2) })
    2 (limit + 1 - 2) { primes := [], prime_count := 0, count := 0 }
    (by simp [primeList, primesFrom])
    (by
      intro k st hk1 hk2 hPk
      have hk : k + 1 - 2 = (k - 2) + 1 := by omega
      have hk' : 2 + (k - 2) = k := by omega
      have hle := primesFrom_le_len 2 (k - 2)
      subst hPk
      by_cases hp : Nat.Prime k
      · refine ⟨_, ?_, rfl⟩
        have hcap : primesFrom 2 (k - 2) < limit + 1 := by omega
        simp [collectStep, readAt, h k hk1 (by omega), hp, hcap, hk, primeList_succ,
          primesFrom_succ, hk']
      · refine ⟨_, ?_, rfl⟩
        simp [collectStep, readAt, h k hk1 (by omega), hp, hk, primeList_succ,
          primesFrom_succ, hk'])
  rw [hst, hP]
  have : 2 + (limit + 1 - 2) - 2 = limit + 1 - 2 := by omega
  rw [this]

theorem friendlyBase_eq (n : Nat) :
    friendlyBase n = .ok { primes := primeList 2 (Nat.sqrt n + 1 - 2),
                           prime_count := primesFrom 2 (Nat.sqrt n + 1 - 2),
                           count := primesFrom 2 (Nat.sqrt n + 1 - 2) } := by
  obtain ⟨out, k, h1, h2, h3⟩ := smallSieveLoop_spec (Nat.sqrt n) (Nat.sqrt n + 1)
    (List.replicate (Nat.sqrt n + 1) false) 2 (sieveInv_init _) (le_refl 2) (by omega)
  unfold friendlyBase
  simp only [bind, Except.bind, h1]
  exact collectLoop_spec (Nat.sqrt n) out (fun x hx2 hxl => sieveInv_final _ k out h2 h3 x hx2 hxl)


theorem firstMultiple_spec (s p : Nat) (hp : 1 ≤ p) :
    p ∣ (s + p - 1) / p * p ∧ s ≤ (s + p - 1) / p * p ∧ (s + p - 1) / p * p < s + p := by
  have h1 := Nat.div_add_mod (s + p - 1) p
  have h2 := Nat.mod_lt (s + p - 1) (by omega : p > 0)
  rw [Nat.mul_comm] at h1
  exact ⟨Dvd.intro_left _ rfl, by omega, by omega⟩

theorem offset_dvd_iff (s p x : Nat) (hp : 1 ≤ p) :
    ((s + p - 1) / p * p - s ≤ x ∧ p ∣ x - ((s + p - 1) / p * p - s)) ↔ p ∣ s + x := by
  obtain ⟨hd, hge, hlt⟩ := firstMultiple_spec s p hp
  generalize (s + p - 1) / p * p = m at hd hge hlt
  constructor
  · rintro ⟨h1, h2⟩
    have : s + x = m + (x - (m - s)) := by omega
    rw [this]
    exact Dvd.dvd.add hd h2
  · intro h
    have hmx : m ≤ s + x := by
      by_contra hcon
      push_neg at hcon
      obtain ⟨a, ha⟩ := h
      obtain ⟨b, hb⟩ := hd
      rw [ha, hb] at hcon
      have hab : a < b := Nat.lt_of_mul_lt_mul_left hcon
      have : p * (a + 1) ≤ p * b := Nat.mul_le_mul_left p hab
      rw [Nat.mul_succ] at this
      omega
    refine ⟨by omega, ?_⟩
    have : x - (m - s) = s + x - m := by omega
    rw [this]
    exact Nat.dvd_sub' h hd

theorem mark_window (seg : List Bool) (s p hi : Nat) (hp : 1 ≤ p) (hlen : hi < seg.length) :
    ∃ out, mark seg ((s + p - 1) / p * p - s) p hi = .ok (out, (s + p - 1) / p * p - s) ∧
      out.length = seg.length ∧
      ∀ x, out[x]? = if x ≤ hi ∧ p ∣ s + x then some true else seg[x]? := by
  obtain ⟨out, h1, h2, h3⟩ := mark_spec seg ((s + p - 1) / p * p - s) p hi hp hlen
  refine ⟨out, h1, h2, ?_⟩
  intro x
  rw [h3 x]
  have hoff := offset_dvd_iff s p x hp
  have hiff : ((s + p - 1) / p * p - s ≤ x ∧ x ≤ hi ∧ p ∣ x - ((s + p - 1) / p * p - s)) ↔
      (x ≤ hi ∧ p ∣ s + x) := by
    constructor
    · rintro ⟨a, b, c⟩
      exact ⟨b, hoff.1 ⟨a, c⟩⟩
    · rintro ⟨b, c⟩
      exact ⟨(hoff.2 c).1, b, (hoff.2 c).2⟩
  simp only [hiff]

theorem friendlySegment_spec (ps : List Nat) (s e : Nat) (hpos : ∀ p ∈ ps, 1 ≤ p) :
    ∃ seg, friendlySegment ps ps.length s e = .ok seg ∧ seg.length = e - s + 1 ∧
      ∀ x, x ≤ e - s → seg[x]? = some (ps.any (fun p => decide (p ∣ s + x))) := by
  obtain ⟨seg, hseg, hlen, hx⟩ := foldlM_range'_inv (segmentMarkStep ps s e)
    (fun k seg => seg.length = e - s + 1 ∧
      ∀ x, x ≤ e - s → seg[x]? = some ((ps.take k).any (fun p => decide (p ∣ s + x))))
    0 ps.length (List.replicate (e - s + 1) false)
    ⟨by simp, by
      intro x hx
      rw [List.getElem?_replicate]
      simp
      omega⟩
    (by
      rintro k seg - hk ⟨hl, hinv⟩
      have hk' : k < ps.length := by omega
      have hget : ps[k]? = some ps[k] := List.getElem?_eq_getElem hk'
      obtain ⟨out, h1, h2, h3⟩ := mark_window seg s ps[k] (e - s)
        (hpos _ (List.getElem_mem hk')) (by omega)
      refine ⟨out, ?_, by omega, ?_⟩
      · simp [segmentMarkStep, startIdx, readAt, hget, h1]
      · intro x hxe
        rw [h3 x, List.take_succ, hget, Option.toList_some, List.any_append, List.any_cons,
          List.any_nil, Bool.or_false, hinv x hxe]
        by_cases hd : ps[k] ∣ s + x <;> simp [hxe, hd])
  refine ⟨seg, ?_, hlen, ?_⟩
  · unfold friendlySegment
    rw [List.range_eq_range']
    exact hseg
  · intro x hxe
    have := hx x hxe
    simpa using this

theorem friendlyWindow_spec (ps : List Nat) (count s e : Nat) (hpos : ∀ p ∈ ps, 1 ≤ p) :
    friendlyWindow ps ps.length count s e = .ok (count + survivors ps s (e - s + 1)) := by
  obtain ⟨seg, hseg, hlen, hx⟩ := friendlySegment_spec ps s e hpos
  unfold friendlyWindow
  simp only [hseg]
  rw [List.range_eq_range']
  rw [countLoop_spec seg (fun y => !(ps.any (fun p => decide (p ∣ y)))) s 0 (e - s + 1) count
    (by
      intro x _ hx2
      rw [hx x (by omega)]
      simp)]
  simp [survivors]

theorem survivors_add (ps : List Nat) (s l1 l2 : Nat) :
    survivors ps s (l1 + l2) = survivors ps s l1 + survivors ps (s + l1) l2 := by
  unfold survivors
  have := List.range'_append s l1 l2 1
  rw [Nat.add_comm l2 l1, Nat.one_mul] at this
  rw [← this, List.countP_append]

theorem windowEnd_bounds (n limit s : Nat) (hl : 1 ≤ limit) (hs : s ≤ n) :
    s ≤ windowEnd n limit s ∧ windowEnd n limit s ≤ n ∧
      windowEnd n limit s - s + 1 = min limit (n + 1 - s) := by
  unfold windowEnd
  simp only
  split_ifs <;> omega

theorem windowLoop_spec (n limit : Nat) (ps : List Nat) (hpos : ∀ p ∈ ps, 1 ≤ p) :
    ∀ (fuel count s : Nat), (1 ≤ limit ∨ n < s) → n + 1 - s < fuel →
      windowLoop fuel n limit ps ps.length count s =
        .ok (count + survivors ps s (n + 1 - s)) := by
  intro fuel
  induction fuel with
  | zero => intro count s _ h; omega
  | succ fuel ih =>
    intro count s hl hfuel
    unfold windowLoop
    by_cases hs : s ≤ n
    · have hl1 : 1 ≤ limit := by omega
      obtain ⟨h1, h2, h3⟩ := windowEnd_bounds n limit s hl1 hs
      simp only [hs, if_true, friendlyWindow_spec ps count s _ hpos]
      rw [ih _ (s + limit) (Or.inl hl1) (by omega), h3]
      have hsplit : n + 1 - s = min limit (n + 1 - s) + (n + 1 - (s + limit)) := by omega
      have hs' : s + min limit (n + 1 - s) = s + limit ∨ n + 1 - (s + limit) = 0 := by omega
      congr 1
      rw [Nat.add_assoc]
      congr 1
      conv_rhs => rw [hsplit, survivors_add]
      rcases hs' with h | h
      · rw [h]
      · rw [h]; simp [survivors]
    · have : n + 1 - s = 0 := by omega
      simp [hs, this, survivors]


theorem mem_basePrimes (limit p : Nat) :
    p ∈ primeList 2 (limit + 1 - 2) ↔ Nat.Prime p ∧ p ≤ limit := by
  rw [mem_primeList]
  constructor
  · rintro ⟨h1, h2, h3⟩
    exact ⟨h1, by omega⟩
  · rintro ⟨h1, h2⟩
    have := h1.two_le
    exact ⟨h1, this, by omega⟩

theorem basePrimes_pos (limit : Nat) : ∀ p ∈ primeList 2 (limit + 1 - 2), 1 ≤ p := by
  intro p hp
  exact ((mem_basePrimes limit p).1 hp).1.one_lt.le

theorem basePrimes_any (n limit y : Nat) (hn : n < (limit + 1) * (limit + 1))
    (hy1 : limit < y) (hy2 : y ≤ n) :
    (primeList 2 (limit + 1 - 2)).any (fun p => decide (p ∣ y)) = !decide (Nat.Prime y) := by
  by_cases hp : Nat.Prime y
  · have : ¬ ∃ p, p ∈ primeList 2 (limit + 1 - 2) ∧ p ∣ y := by
      rintro ⟨p, hmem, hdvd⟩
      obtain ⟨hpp, hle⟩ := (mem_basePrimes limit p).1 hmem
      rcases (Nat.dvd_prime hp).1 hdvd with h1 | h1
      · exact hpp.one_lt.ne' h1
      · omega
    simp only [hp, decide_True, Bool.not_true]
    rw [Bool.eq_false_iff]
    intro hany
    apply this
    simpa using hany
  · have hy2' : 2 ≤ y := by
      rcases Nat.eq_zero_or_pos limit with h0 | h0
      · subst h0; omega
      · omega
    have hsq := Nat.minFac_sq_le_self (by omega : 0 < y) hp
    have hmp := Nat.minFac_prime (by omega : y ≠ 1)
    have hle : y.minFac ≤ limit := by
      by_contra hcon
      push_neg at hcon
      have : (limit + 1) * (limit + 1) ≤ y.minFac * y.minFac := Nat.mul_le_mul hcon hcon
      nlinarith [hsq]
    have hmem := (mem_basePrimes limit y.minFac).2 ⟨hmp, hle⟩
    simp only [hp, decide_False, Bool.not_false]
    rw [List.any_eq_true]
    exact ⟨y.minFac, hmem, by simpa using Nat.minFac_dvd y⟩

theorem survivors_basePrimes (n limit s len : Nat) (hn : n < (limit + 1) * (limit + 1))
    (hs : limit < s) (he : s + len ≤ n + 1) :
    survivors (primeList 2 (limit + 1 - 2)) s len = primesFrom s len := by
  unfold survivors primesFrom
  apply List.countP_congr
  intro y hy
  rw [List.mem_range'_1] at hy
  rw [basePrimes_any n limit y hn (by omega) (by omega)]
  simp

theorem primesFrom_split (n limit : Nat) (h : limit ≤ n) :
    primesFrom 2 (limit + 1 - 2) + primesFrom (limit + 1) (n + 1 - (limit + 1)) =
      primesFrom 2 (n + 1 - 2) := by
  rcases Nat.eq_zero_or_pos limit with h0 | h0
  · subst h0
    rcases Nat.eq_zero_or_pos n with hn | hn
    · subst hn; simp [primesFrom]
    · have h1 : n + 1 - (0 + 1) = 1 + (n + 1 - 2) := by omega
      rw [h1, primesFrom_add]
      simp [primesFrom, Nat.not_prime_one]
  · have h1 : n + 1 - 2 = (limit + 1 - 2) + (n + 1 - (limit + 1)) := by omega
    have h2 : 2 + (limit + 1 - 2) = limit + 1 := by omega
    rw [h1, primesFrom_add, h2]

theorem cache_friendly_sieve_eq (n : Nat) :
    cache_friendly_sieve n = .ok (primesFrom 2 (n + 1 - 2)) := by
  have hsq := Nat.sqrt_le_self n
  have hlt := Nat.lt_succ_sqrt n
  have hcase : 1 ≤ Nat.sqrt n ∨ n < Nat.sqrt n + 1 := by
    rcases Nat.eq_zero_or_pos (Nat.sqrt n) with h0 | h0
    · right
      rw [h0] at hlt
      simp at hlt
      omega
    · left; exact h0
  unfold cache_friendly_sieve
  simp only [bind, Except.bind, friendlyBase_eq]
  rw [← primeList_length]
  rw [windowLoop_spec n (Nat.sqrt n) _ (basePrimes_pos _) (n + 1) _ _ hcase (by omega)]
  rw [survivors_basePrimes n (Nat.sqrt n) _ _ hlt (by omega) (by omega)]
  rw [primeList_length, primesFrom_split n _ hsq]


theorem parallelBase_spec (n : Nat) :
    ∃ buf, parallelBase n = .ok { count := primesFrom 2 (Nat.sqrt n + 1 - 2),
                                  n_factor := primesFrom 2 (Nat.sqrt n + 1 - 2),
                                  factor := primeList 2 (Nat.sqrt n + 1 - 2),
                                  composite := buf } := by
  obtain ⟨st, hst, hinv, hP⟩ := foldlM_range'_inv (baseStep (Nat.sqrt n))
    (fun k st => SieveInv (Nat.sqrt n) k st.composite ∧
      st = { count := primesFrom 2 (k - 2), n_factor := primesFrom 2 (k - 2),
             factor := primeList 2 (k - 2), composite := st.composite })
    2 (Nat.sqrt n + 1 - 2)
    { count := 0, n_factor := 0, factor := [],
      composite := List.replicate (Nat.sqrt n + 1) false }
    ⟨sieveInv_init _, by simp [primeList, primesFrom]⟩
    (by
      rintro k st hk1 hk2 ⟨hinv, hPk⟩
      have hk : k + 1 - 2 = (k - 2) + 1 := by omega
      have hk' : 2 + (k - 2) = k := by omega
      have hle := primesFrom_le_len 2 (k - 2)
      have hread := sieveInv_read _ k st.composite hinv hk1 (by omega)
      by_cases hp : Nat.Prime k
      · obtain ⟨out, hout, hinv'⟩ := sieveInv_mark _ k st.composite hinv hp
        have hcap : st.n_factor < Nat.sqrt n := by rw [hPk]; simp only; omega
        refine ⟨{ count := st.count + 1, n_factor := st.n_factor + 1,
                  factor := st.factor ++ [k], composite := out }, ?_, hinv', ?_⟩
        · simp [baseStep, hread, hp, hout, hcap]
        · rw [hPk]
          simp [hk, primeList_succ, primesFrom_succ, hk', hp]
      · refine ⟨st, ?_, sieveInv_skip _ k st.composite hinv hp, ?_⟩
        · simp [baseStep, hread, hp]
        · rw [hPk]
          simp [hk, primeList_succ, primesFrom_succ, hk', hp])
  refine ⟨st.composite, ?_⟩
  unfold parallelBase
  simp only
  rw [hst, hP]
  have : 2 + (Nat.sqrt n + 1 - 2) - 2 = Nat.sqrt n + 1 - 2 := by omega
  simp [this]

theorem markerLoop_spec (ps : List Nat) (w : Nat) :
    (List.range ps.length).foldlM (markerStep ps.length ps w) [] =
      .ok (ps.map (fun f => (w + f - 1) / f * f - w)) := by
  obtain ⟨m, hm, hP⟩ := foldlM_range'_inv (markerStep ps.length ps w)
    (fun k m => m = (ps.take k).map (fun f => (w + f - 1) / f * f - w))
    0 ps.length [] (by simp)
    (by
      intro k m _ hk hPk
      have hk' : k < ps.length := by omega
      have hget : ps[k]? = some ps[k] := List.getElem?_eq_getElem hk'
      refine ⟨m ++ [(w + ps[k] - 1) / ps[k] * ps[k] - w], ?_, ?_⟩
      · simp [markerStep, markerOffset, readAt, hget, hk']
      · show _ = (ps.take (k + 1)).map _
        rw [List.take_succ, hget, Option.toList_some, List.map_append, hPk]
        rfl)
  rw [List.range_eq_range', hm, hP]
  simp

theorem windowEnd_sub_lt (n limit w : Nat) : windowEnd n limit w - w < limit + 1 := by
  unfold windowEnd
  simp only
  split_ifs <;> omega

theorem parallelSegment_spec (n limit : Nat) (ps : List Nat) (w : Nat)
    (hpos : ∀ p ∈ ps, 1 ≤ p) :
    ∃ seg, parallelSegment n limit ps.length ps w = .ok seg ∧ seg.length = limit + 1 ∧
      ∀ x, x ≤ windowEnd n limit w - w →
        seg[x]? = some (ps.any (fun p => decide (p ∣ w + x))) := by
  have hhi := windowEnd_sub_lt n limit w
  obtain ⟨seg, hseg, hlen, hx⟩ := foldlM_range'_inv
    (localMarkStep ps (ps.map (fun f => (w + f - 1) / f * f - w)) w (windowEnd n limit w))
    (fun k seg => seg.length = limit + 1 ∧
      ∀ x, x ≤ windowEnd n limit w - w →
        seg[x]? = some ((ps.take k).any (fun p => decide (p ∣ w + x))))
    0 ps.length (List.replicate (limit + 1) false)
    ⟨by simp, by
      intro x hx
      rw [List.getElem?_replicate]
      simp
      omega⟩
    (by
      rintro k seg - hk ⟨hl, hinv⟩
      have hk' : k < ps.length := by omega
      have hget : ps[k]? = some ps[k] := List.getElem?_eq_getElem hk'
      obtain ⟨out, h1, h2, h3⟩ := mark_window seg w ps[k] (windowEnd n limit w - w)
        (hpos _ (List.getElem_mem hk')) (by omega)
      refine ⟨out, ?_, by omega, ?_⟩
      · simp [localMarkStep, readAt, hget, h1, List.getElem?_map]
      · intro x hxe
        rw [h3 x, List.take_succ, hget, Option.toList_some, List.any_append, List.any_cons,
          List.any_nil, Bool.or_false, hinv x hxe]
        by_cases hd : ps[k] ∣ w + x <;> simp [hxe, hd])
  refine ⟨seg, ?_, hlen, ?_⟩
  · unfold parallelSegment
    simp only [bind, Except.bind, markerLoop_spec]
    rw [List.range_eq_range']
    exact hseg
  · intro x hxe
    have := hx x hxe
    simpa using this

theorem parallelWindow_spec (n limit : Nat) (ps : List Nat) (count w : Nat)
    (hpos : ∀ p ∈ ps, 1 ≤ p) :
    parallelWindow n limit ps.length ps count w =
      .ok (count + windowSurvivors n limit ps w) := by
  obtain ⟨seg, hseg, hlen, hx⟩ := parallelSegment_spec n limit ps w hpos
  unfold parallelWindow
  simp only [hseg]
  rw [countLoop_spec seg (fun y => !(ps.any (fun p => decide (p ∣ y)))) w 0 _ count
    (by
      intro x _ hx2
      rw [hx x (by omega)]
      simp)]
  simp [windowSurvivors, survivors]

theorem workerCount_spec (n limit : Nat) (ps : List Nat) (hpos : ∀ p ∈ ps, 1 ≤ p) :
    ∀ (ws : List Nat) (c : Nat),
      ws.foldlM (parallelWindow n limit ps.length ps) c =
        .ok (c + (ws.map (windowSurvivors n limit ps)).sum) := by
  intro ws
  induction ws with
  | nil => intro c; simp [pure, Except.pure]
  | cons w ws ih =>
    intro c
    rw [List.foldlM_cons, parallelWindow_spec n limit ps c w hpos]
    simp only [bind, Except.bind]
    rw [ih]
    simp [Nat.add_assoc]

theorem parallelReduce_spec (n limit : Nat) (ps : List Nat) (buf : List Bool)
    (hpos : ∀ p ∈ ps, 1 ≤ p) :
    ∀ (schedule : List (List Nat)) (c : Nat),
      parallelReduce n limit
          { count := c, n_factor := ps.length, factor := ps, composite := buf } schedule =
        .ok (c + (schedule.flatten.map (windowSurvivors n limit ps)).sum) := by
  intro schedule
  induction schedule with
  | nil => intro c; simp [parallelReduce, pure, Except.pure]
  | cons ws schedule ih =>
    intro c
    have hstep : parallelReduce n limit
        { count := c, n_factor := ps.length, factor := ps, composite := buf }
        (ws :: schedule) =
        parallelReduce n limit
          { count := c + (ws.map (windowSurvivors n limit ps)).sum, n_factor := ps.length,
            factor := ps, composite := buf } schedule := by
      unfold parallelReduce
      rw [List.foldlM_cons]
      simp only [workerCount, workerCount_spec n limit ps hpos ws 0, bind, Except.bind,
        Nat.zero_add]
    rw [hstep, ih]
    simp [Nat.add_assoc]


theorem survivors_split_window (ps : List Nat) (n limit s : Nat) :
    survivors ps s (min limit (n + 1 - s)) + survivors ps (s + limit) (n + 1 - (s + limit)) =
      survivors ps s (n + 1 - s) := by
  have hsplit : n + 1 - s = min limit (n + 1 - s) + (n + 1 - (s + limit)) := by omega
  have hs' : s + min limit (n + 1 - s) = s + limit ∨ n + 1 - (s + limit) = 0 := by omega
  conv_rhs => rw [hsplit, survivors_add]
  rcases hs' with h | h
  · rw [h]
  · rw [h]; simp [survivors]

theorem windowSurvivors_sum (n limit : Nat) (ps : List Nat) (hl : 1 ≤ limit) :
    ∀ (c s : Nat), n + 1 ≤ s + c * limit → (1 ≤ c → s + (c - 1) * limit ≤ n) →
      ((List.range' s c limit).map (windowSurvivors n limit ps)).sum =
        survivors ps s (n + 1 - s) := by
  intro c
  induction c with
  | zero =>
    intro s h1 _
    have : n + 1 - s = 0 := by omega
    simp [this, survivors]
  | succ c ih =>
    intro s h1 h2
    have hm : (c + 1) * limit = c * limit + limit := Nat.succ_mul c limit
    have hsn : s ≤ n := by
      have := h2 (by omega)
      simp only [Nat.add_sub_cancel] at this
      have : s ≤ s + c * limit := Nat.le_add_right _ _
      omega
    have h2' := h2 (by omega)
    simp only [Nat.add_sub_cancel] at h2'
    rw [List.range'_succ, List.map_cons, List.sum_cons]
    rw [ih (s + limit) (by omega) (by
      intro hc
      obtain ⟨d, rfl⟩ : ∃ d, c = d + 1 := ⟨c - 1, by omega⟩
      have hm' : (d + 1) * limit = d * limit + limit := Nat.succ_mul d limit
      simp only [Nat.add_sub_cancel]
      omega)]
    unfold windowSurvivors
    rw [(windowEnd_bounds n limit s hl hsn).2.2]
    exact survivors_split_window ps n limit s

theorem parallelWindows_sum (n limit : Nat) (ps : List Nat)
    (hl : 1 ≤ limit ∨ n < limit + 1) :
    ((parallelWindows n limit).map (windowSurvivors n limit ps)).sum =
      survivors ps (limit + 1) (n + 1 - (limit + 1)) := by
  unfold parallelWindows
  by_cases h : limit + 1 ≤ n
  · have hl1 : 1 ≤ limit := by omega
    simp only [h, if_true]
    have hdm := Nat.div_add_mod (n - (limit + 1)) limit
    have hlt := Nat.mod_lt (n - (limit + 1)) (by omega : limit > 0)
    rw [Nat.mul_comm] at hdm
    have hm : ((n - (limit + 1)) / limit + 1) * limit =
        (n - (limit + 1)) / limit * limit + limit := Nat.succ_mul _ _
    apply windowSurvivors_sum n limit ps hl1
    · omega
    · intro _
      simp only [Nat.add_sub_cancel]
      omega
  · have : n + 1 - (limit + 1) = 0 := by omega
    simp [h, this, survivors]

theorem sqrt_window_case (n : Nat) : 1 ≤ Nat.sqrt n ∨ n < Nat.sqrt n + 1 := by
  have hlt := Nat.lt_succ_sqrt n
  rcases Nat.eq_zero_or_pos (Nat.sqrt n) with h0 | h0
  · right
    rw [h0] at hlt
    simp at hlt
    omega
  · left; exact h0

theorem parallelSieveWith_eq (n : Nat) (schedule : List (List Nat))
    (h : schedule.flatten.Perm (parallelWindows n (Nat.sqrt n))) :
    parallelSieveWith n schedule = .ok (primesFrom 2 (n + 1 - 2)) := by
  have hsq := Nat.sqrt_le_self n
  have hlt := Nat.lt_succ_sqrt n
  obtain ⟨buf, hbase⟩ := parallelBase_spec n
  rw [← primeList_length] at hbase
  unfold parallelSieveWith
  simp only [bind, Except.bind, hbase]
  rw [parallelReduce_spec n (Nat.sqrt n) _ buf (basePrimes_pos _) schedule]
  rw [(h.map _).sum_eq, parallelWindows_sum n _ _ (sqrt_window_case n)]
  rw [survivors_basePrimes n (Nat.sqrt n) _ _ hlt (by omega) (by omega)]
  rw [primeList_length, primesFrom_split n _ hsq]

theorem flatten_singletons (l : List Nat) : (l.map (fun w => [w])).flatten = l := by
  induction l with
  | nil => rfl
  | cons a l ih => simp [ih]

theorem parallel_sieve_eq (n : Nat) : parallel_sieve n = .ok (primesFrom 2 (n + 1 - 2)) := by
  unfold parallel_sieve
  apply parallelSieveWith_eq
  rw [flatten_singletons]


theorem windowLoop_eq_foldlM (n limit : Nat) (ps : List Nat) (pc : Nat) :
    ∀ (c fuel count s : Nat), n + 1 ≤ s + c * limit → (1 ≤ c → s + (c - 1) * limit ≤ n) →
      c < fuel →
      windowLoop fuel n limit ps pc count s =
        (List.range' s c limit).foldlM
          (fun cnt w => friendlyWindow ps pc cnt w (windowEnd n limit w)) count := by
  intro c
  induction c with
  | zero =>
    intro fuel count s h1 _ hf
    obtain ⟨f, rfl⟩ : ∃ f, fuel = f + 1 := ⟨fuel - 1, by omega⟩
    have hs : ¬ s ≤ n := by omega
    simp [windowLoop, hs, pure, Except.pure]
  | succ c ih =>
    intro fuel count s h1 h2 hf
    obtain ⟨f, rfl⟩ : ∃ f, fuel = f + 1 := ⟨fuel - 1, by omega⟩
    have hm : (c + 1) * limit = c * limit + limit := Nat.succ_mul c limit
    have h2' := h2 (by omega)
    simp only [Nat.add_sub_cancel] at h2'
    have hsn : s ≤ n := by
      have : s ≤ s + c * limit := Nat.le_add_right _ _
      omega
    rw [List.range'_succ, List.foldlM_cons]
    unfold windowLoop
    simp only [hsn, if_true]
    cases hw : friendlyWindow ps pc count s (windowEnd n limit s) with
    | error e => simp [bind, Except.bind]
    | ok count' =>
      simp only [bind, Except.bind]
      apply ih f count' (s + limit) (by omega) _ (by omega)
      intro hc
      obtain ⟨d, rfl⟩ : ∃ d, c = d + 1 := ⟨c - 1, by omega⟩
      have hm' : (d + 1) * limit = d * limit + limit := Nat.succ_mul d limit
      simp only [Nat.add_sub_cancel]
      omega

theorem tripCount_bounds (n limit : Nat) (hl : 1 ≤ limit) (h : limit + 1 ≤ n) :
    n + 1 ≤ limit + 1 + ((n - (limit + 1)) / limit + 1) * limit ∧
      limit + 1 + (n - (limit + 1)) / limit * limit ≤ n ∧
      (n - (limit + 1)) / limit + 1 < n + 1 := by
  have hdm := Nat.div_add_mod (n - (limit + 1)) limit
  have hlt := Nat.mod_lt (n - (limit + 1)) (by omega : limit > 0)
  rw [Nat.mul_comm] at hdm
  have hm : ((n - (limit + 1)) / limit + 1) * limit =
      (n - (limit + 1)) / limit * limit + limit := Nat.succ_mul _ _
  have hq : (n - (limit + 1)) / limit ≤ (n - (limit + 1)) / limit * limit :=
    Nat.le_mul_of_pos_right _ hl
  refine ⟨by omega, by omega, by omega⟩

theorem windowLoop_visits (n limit : Nat) (ps : List Nat) (pc count : Nat)
    (hl : 1 ≤ limit ∨ n < limit + 1) :
    windowLoop (n + 1) n limit ps pc count (limit + 1) =
      (parallelWindows n limit).foldlM
        (fun cnt w => friendlyWindow ps pc cnt w (windowEnd n limit w)) count := by
  unfold parallelWindows
  by_cases h : limit + 1 ≤ n
  · have hl1 : 1 ≤ limit := by omega
    obtain ⟨h1, h2, h3⟩ := tripCount_bounds n limit hl1 h
    simp only [h, if_true]
    apply windowLoop_eq_foldlM n limit ps pc _ (n + 1) count (limit + 1) h1 _ h3
    intro _
    simp only [Nat.add_sub_cancel]
    exact h2
  · simp [h, windowLoop, pure, Except.pure]

theorem partition_sum (ps : List Nat) (n : Nat) :
    ∀ (ws : List (Nat × Nat)) (start : Nat), ConsecutiveWindows start n ws →
      (ws.map (fun w => survivors ps w.1 (w.2 - w.1 + 1))).sum =
        survivors ps start (n + 1 - start) := by
  intro ws
  induction ws with
  | nil =>
    intro start h
    simp only [ConsecutiveWindows] at h
    subst h
    simp [survivors]
  | cons w rest ih =>
    rintro start ⟨h1, h2, h3, h4⟩
    rw [List.map_cons, List.sum_cons, ih _ h4]
    have hsplit : n + 1 - start = (w.2 - w.1 + 1) + (n + 1 - (w.2 + 1)) := by omega
    have hs : w.1 + (w.2 - w.1 + 1) = w.2 + 1 := by omega
    rw [hsplit, ← h1, survivors_add ps w.1 (w.2 - w.1 + 1) (n + 1 - (w.2 + 1)), hs]

theorem sqrt_succ_le (n : Nat) (hn : 2 ≤ n) : Nat.sqrt n + 1 ≤ n := by
  have := Nat.sqrt_lt_self (by omega : 1 < n)
  omega


theorem windowEnd_le_add (n limit w : Nat) : windowEnd n limit w ≤ w + limit - 1 := by
  unfold windowEnd
  simp only
  split_ifs <;> omega

theorem windowEnd_of_le (n limit w : Nat) (h : w + limit ≤ n + 1) :
    windowEnd n limit w = w + limit - 1 := by
  unfold windowEnd
  simp only
  split_ifs <;> omega

theorem windowEnd_of_ge (n limit w : Nat) (h : n + 1 ≤ w + limit) :
    windowEnd n limit w = n := by
  unfold windowEnd
  simp only
  split_ifs <;> omega

/-- Shape of the window list when at least one window exists. -/
theorem parallelWindows_shape (n limit : Nat) (hl : 1 ≤ limit) (h : limit + 1 ≤ n) :
    ∃ c, 1 ≤ c ∧ parallelWindows n limit = List.range' (limit + 1) c limit ∧
      n + 1 ≤ limit + 1 + limit * c ∧ limit + 1 + limit * (c - 1) ≤ n := by
  obtain ⟨h1, h2, -⟩ := tripCount_bounds n limit hl h
  refine ⟨(n - (limit + 1)) / limit + 1, Nat.le_add_left 1 _, ?_, ?_, ?_⟩
  · unfold parallelWindows
    simp [h]
  · rw [Nat.mul_comm]; exact h1
  · rw [Nat.add_sub_cancel, Nat.mul_comm]; exact h2

theorem window_index_facts (n limit c i : Nat)
    (h2 : limit + 1 + limit * (c - 1) ≤ n) (hi : i < c) :
    limit + 1 + limit * i ≤ n ∧ (i + 1 < c → limit + 1 + limit * i + limit ≤ n) := by
  have hle : limit * i ≤ limit * (c - 1) := Nat.mul_le_mul_left _ (by omega)
  refine ⟨by omega, ?_⟩
  intro hic
  have hle' : limit * (i + 1) ≤ limit * (c - 1) := Nat.mul_le_mul_left _ (by omega)
  rw [Nat.mul_succ] at hle'
  omega


theorem le_windowEnd (n limit w x : Nat) (h1 : x ≤ n) (h2 : x ≤ w + limit - 1) :
    x ≤ windowEnd n limit w := by
  unfold windowEnd
  simp only
  split_ifs <;> omega

theorem getElem?_range'_some (s c step i a : Nat) (h : (List.range' s c step)[i]? = some a) :
    i < c ∧ a = s + step * i := by
  by_cases hi : i < c
  · rw [List.getElem?_range' s step hi] at h
    exact ⟨hi, (Option.some.inj h).symm⟩
  · rw [List.getElem?_eq_none (by simp; omega)] at h
    exact absurd h (by simp)

theorem window_invariant (n limit : Nat) (hl : 1 ≤ limit) (h : limit + 1 ≤ n) :
    (parallelWindows n limit).head? = some (limit + 1) ∧
    (∀ w ∈ parallelWindows n limit,
      limit < w ∧ w ≤ windowEnd n limit w ∧ windowEnd n limit w ≤ n ∧
      1 ≤ windowEnd n limit w - w + 1 ∧ windowEnd n limit w - w + 1 ≤ limit) ∧
    (∀ i a b, (parallelWindows n limit)[i]? = some a →
      (parallelWindows n limit)[i + 1]? = some b →
      b = windowEnd n limit a + 1 ∧ windowEnd n limit a - a + 1 = limit) ∧
    (∃ wl, (parallelWindows n limit).getLast? = some wl ∧ windowEnd n limit wl = n) ∧
    (parallelWindows n limit).Pairwise (fun a b => windowEnd n limit a < b) ∧
    (∀ x, (limit < x ∧ x ≤ n) ↔
      ∃ w ∈ parallelWindows n limit, w ≤ x ∧ x ≤ windowEnd n limit w) := by
  obtain ⟨c, hc, hW, H1, H2⟩ := parallelWindows_shape n limit hl h
  rw [hW]
  have hmem : ∀ w ∈ List.range' (limit + 1) c limit, limit < w ∧ w ≤ n := by
    intro w hw
    rw [List.mem_range'] at hw
    obtain ⟨i, hi, rfl⟩ := hw
    exact ⟨by omega, (window_index_facts n limit c i H2 hi).1⟩
  refine ⟨?_, ?_, ?_, ?_, ?_, ?_⟩
  · obtain ⟨d, rfl⟩ : ∃ d, c = d + 1 := ⟨c - 1, by omega⟩
    rw [List.range'_succ]
    rfl
  · intro w hw
    obtain ⟨h1, h2⟩ := hmem w hw
    obtain ⟨h3, h4, h5⟩ := windowEnd_bounds n limit w hl h2
    exact ⟨h1, h3, h4, by omega, by omega⟩
  · intro i a b ha hb
    obtain ⟨hi, rfl⟩ := getElem?_range'_some _ _ _ _ _ ha
    obtain ⟨hi', rfl⟩ := getElem?_range'_some _ _ _ _ _ hb
    have hf := (window_index_facts n limit c i H2 hi).2 hi'
    rw [windowEnd_of_le n limit _ (by omega), Nat.mul_succ]
    constructor <;> omega
  · obtain ⟨d, rfl⟩ : ∃ d, c = d + 1 := ⟨c - 1, by omega⟩
    refine ⟨limit + 1 + limit * d, ?_, ?_⟩
    · rw [List.range'_concat, List.getLast?_concat]
    · rw [Nat.mul_succ] at H1
      exact windowEnd_of_ge n limit _ (by omega)
  · refine List.Pairwise.imp_of_mem ?_ (List.pairwise_lt_range' (limit + 1) c limit hl)
    intro a b ha hb hab
    rw [List.mem_range'] at ha hb
    obtain ⟨i, -, rfl⟩ := ha
    obtain ⟨j, -, rfl⟩ := hb
    have hij : i < j := by
      have : limit * i < limit * j := by omega
      exact Nat.lt_of_mul_lt_mul_left this
    have hle : limit * (i + 1) ≤ limit * j := Nat.mul_le_mul_left _ hij
    rw [Nat.mul_succ] at hle
    have := windowEnd_le_add n limit (limit + 1 + limit * i)
    omega
  · intro x
    constructor
    · rintro ⟨hx1, hx2⟩
      have hdl := Nat.mul_div_le (x - (limit + 1)) limit
      have hlt := Nat.lt_mul_div_succ (x - (limit + 1)) (by omega : 0 < limit)
      rw [Nat.mul_succ] at hlt
      have hi : (x - (limit + 1)) / limit < c := by
        by_contra hcon
        push_neg at hcon
        have : limit * c ≤ limit * ((x - (limit + 1)) / limit) := Nat.mul_le_mul_left _ hcon
        omega
      refine ⟨limit + 1 + limit * ((x - (limit + 1)) / limit), ?_, by omega, ?_⟩
      · rw [List.mem_range']
        exact ⟨_, hi, rfl⟩
      · exact le_windowEnd n limit _ x hx2 (by omega)
    · rintro ⟨w, hw, hx1, hx2⟩
      obtain ⟨h1, h2⟩ := hmem w hw
      have := (windowEnd_bounds n limit w hl h2).2.1
      exact ⟨by omega, by omega⟩

/-- C11: for every n ≥ 2 with limit = floor(sqrt n), the windows of the window
loop (start limit + 1, stride limit, end min(start + limit - 1, n)) are
non-empty, consecutive, pairwise disjoint and cover exactly (limit, n]; every
window has length limit except possibly the last, whose length is between 1 and
limit; and the loop of cache_friendly_sieve visits exactly these windows. -/
theorem C11_window_invariant (n : Nat) (hn : 2 ≤ n) :
    (parallelWindows n (Nat.sqrt n)).head? = some (Nat.sqrt n + 1) ∧
    (∀ w ∈ parallelWindows n (Nat.sqrt n),
      Nat.sqrt n < w ∧ w ≤ windowEnd n (Nat.sqrt n) w ∧ windowEnd n (Nat.sqrt n) w ≤ n ∧
      1 ≤ windowEnd n (Nat.sqrt n) w - w + 1 ∧
      windowEnd n (Nat.sqrt n) w - w + 1 ≤ Nat.sqrt n) ∧
    (∀ i a b, (parallelWindows n (Nat.sqrt n))[i]? = some a →
      (parallelWindows n (Nat.sqrt n))[i + 1]? = some b →
      b = windowEnd n (Nat.sqrt n) a + 1 ∧ windowEnd n (Nat.sqrt n) a - a + 1 = Nat.sqrt n) ∧
    (∃ wl, (parallelWindows n (Nat.sqrt n)).getLast? = some wl ∧
      windowEnd n (Nat.sqrt n) wl = n) ∧
    (parallelWindows n (Nat.sqrt n)).Pairwise (fun a b => windowEnd n (Nat.sqrt n) a < b) ∧
    (∀ x, (Nat.sqrt n < x ∧ x ≤ n) ↔
      ∃ w ∈ parallelWindows n (Nat.sqrt n), w ≤ x ∧ x ≤ windowEnd n (Nat.sqrt n) w) ∧
    (∀ (ps : List Nat) (pc count : Nat),
      windowLoop (n + 1) n (Nat.sqrt n) ps pc count (Nat.sqrt n + 1) =
        (parallelWindows n (Nat.sqrt n)).foldlM
          (fun cnt w => friendlyWindow ps pc cnt w (windowEnd n (Nat.sqrt n) w)) count) := by
  have hl : 1 ≤ Nat.sqrt n := Nat.sqrt_pos.2 (by omega)
  obtain ⟨h1, h2, h3, h4, h5, h6⟩ := window_invariant n (Nat.sqrt n) hl (sqrt_succ_le n hn)
  exact ⟨h1, h2, h3, h4, h5, h6,
    fun ps pc count => windowLoop_visits n (Nat.sqrt n) ps pc count (Or.inl hl)⟩

theorem C11_window_invariant_witness :
    2 ≤ 10 ∧ (parallelWindows 10 (Nat.sqrt 10)).head? = some (Nat.sqrt 10 + 1) ∧
    ∃ wl, (parallelWindows 10 (Nat.sqrt 10)).getLast? = some wl ∧
      windowEnd 10 (Nat.sqrt 10) wl = 10 :=
  have h := C11_window_invariant 10 (by decide)
  ⟨by decide, h.1, h.2.2.2.1⟩


theorem Fits.mono {bound : Option Nat} {m x : Nat} (h : Fits bound m) (hx : x ≤ m) :
    Fits bound x :=
  fun b hb => Nat.le_trans hx (h b hb)

theorem chk_ok (bound : Option Nat) (x m : Nat) (hfit : Fits bound m) (h : x ≤ m) :
    chk bound x = .ok x := by
  unfold chk
  cases hb : bound with
  | none => rfl
  | some b =>
    have := hfit b hb
    simp only
    rw [if_pos (by omega)]

theorem advance_ok {α : Type} (bound : Option Nat) (i m : Nat) (x : α) (hfit : Fits bound m)
    (h : i + 1 ≤ m) : advance bound i x = .ok x := by
  unfold advance
  rw [chk_ok bound (i + 1) m hfit h]

theorem chkSub_ok (a b : Nat) (h : b ≤ a) : chkSub a b = .ok (a - b) := by
  unfold chkSub
  rw [if_pos h]

theorem chkDiv_ok (a b : Nat) (h : 1 ≤ b) : chkDiv a b = .ok (a / b) := by
  unfold chkDiv
  rw [if_neg (by omega)]

theorem markLoopChecked_eq (bound : Option Nat) (step limit m : Nat) (hfit : Fits bound m)
    (h : limit + step ≤ m) :
    ∀ (fuel : Nat) (comp : List Bool) (j : Nat),
      markLoopChecked bound fuel comp j step limit = markLoop fuel comp j step limit := by
  intro fuel
  induction fuel with
  | zero => intro comp j; rfl
  | succ fuel ih =>
    intro comp j
    unfold markLoopChecked markLoop
    by_cases hj : j ≤ limit
    · simp only [hj, if_true, chk_ok bound (j + step) m hfit (by omega), ih]
    · simp only [hj, if_false]

theorem markChecked_of_mark (bound : Option Nat) (line : Nat) (comp out : List Bool)
    (i step limit m : Nat) (hfit : Fits bound m) (h : limit + step ≤ m)
    (hmark : mark comp i step limit = .ok (out, i)) :
    markChecked bound line comp i step limit =
      .ok (out, [{ line := line, len := comp.length, i := i, step := step, limit := limit }]) := by
  unfold markChecked
  rw [markLoopChecked_eq bound step limit m hfit h]
  unfold mark at hmark
  cases hl : markLoop (limit + 1 - i + 1) comp i step limit with
  | error e => rw [hl] at hmark; simp at hmark
  | ok o =>
    rw [hl] at hmark
    simp only [Except.ok.injEq, Prod.mk.injEq, and_true] at hmark
    rw [hmark]

theorem sieveStepChecked_inv (bound : Option Nat) (line L k m : Nat) (buf : List Bool)
    (log : List MarkCall) (hfit : Fits bound m) (h : SieveInv L k buf) (hk2 : 2 ≤ k)
    (hkL : k ≤ L) (h1 : k * k ≤ m) (h2 : L + k ≤ m) :
    ∃ out calls, sieveStepChecked bound line L (buf, log) k = .ok (out, log ++ calls) ∧
      SieveInv L (k + 1) out ∧
      ∀ c ∈ calls, c = { line := line, len := L + 1, i := k * k, step := k, limit := L } := by
  unfold sieveStepChecked
  simp only
  rw [sieveInv_read L k buf h hk2 hkL]
  by_cases hp : Nat.Prime k
  · obtain ⟨out, hout, hinv⟩ := sieveInv_mark L k buf h hp
    refine ⟨out, [{ line := line, len := L + 1, i := k * k, step := k, limit := L }], ?_, hinv,
      by simp⟩
    simp only [hp, decide_True, Bool.not_true, Bool.not_false, if_true,
      chk_ok bound (k * k) m hfit h1,
      markChecked_of_mark bound line buf out (k * k) k L m hfit h2 hout,
      advance_ok bound k m _ hfit (by omega), h.1]
  · refine ⟨buf, [], ?_, sieveInv_skip L k buf h hp, by simp⟩
    simp [hp, advance_ok bound k m _ hfit (by omega : k + 1 ≤ m)]

theorem countLoopChecked_spec (bound : Option Nat) (buf : List Bool) (q : Nat → Bool)
    (s a len c0 m : Nat) (hfit : Fits bound m) (hc : c0 + len ≤ m) (ha : a + len ≤ m)
    (h : ∀ x, a ≤ x → x < a + len → buf[x]? = some (!(q (s + x)))) :
    (List.range' a len).foldlM (countStepChecked bound buf) c0 =
      .ok (c0 + (List.range' (s + a) len).countP q) := by
  obtain ⟨c, hc', hP⟩ := foldlM_range'_inv (countStepChecked bound buf)
    (fun k c => c = c0 + (List.range' (s + a) (k - a)).countP q) a len c0 (by simp)
    (by
      intro k c hk1 hk2 hPk
      have hcnt : (List.range' (s + a) (k - a)).countP q ≤ k - a :=
        (List.countP_le_length _).trans (by simp)
      refine ⟨if !(!(q (s + k))) then c + 1 else c, ?_, ?_⟩
      · unfold countStepChecked
        simp only [readAt, h k hk1 hk2]
        by_cases hq : q (s + k)
        · simp only [hq, Bool.not_true, Bool.not_false, if_true,
            chk_ok bound (c + 1) m hfit (by omega), advance_ok bound k m _ hfit (by omega)]
        · simp [hq, advance_ok bound k m _ hfit (by omega : k + 1 ≤ m)]
      · show _ = c0 + (List.range' (s + a) (k + 1 - a)).countP q
        have hka : k + 1 - a = (k - a) + 1 := by omega
        have hsk : s + a + 1 * (k - a) = s + k := by omega
        rw [hka, List.range'_concat, List.countP_append, hsk, hPk]
        by_cases hq : q (s + k) <;> simp [hq, List.countP_cons, Nat.add_assoc])
  rw [hc', hP]
  simp


theorem sqrt_sq_le (n k : Nat) (hk : k ≤ Nat.sqrt n) : k * k ≤ n :=
  Nat.le_sqrt.1 hk

theorem cache_unfriendly_sieveChecked_spec (bound : Option Nat) (n m : Nat) (hn : 1 ≤ n)
    (hfit : Fits bound m) (hm : n + Nat.sqrt n ≤ m) :
    ∃ log, cache_unfriendly_sieveChecked bound n = .ok (primesFrom 2 (n + 1 - 2), log) ∧
      ∀ c ∈ log, CallOK n (Nat.sqrt n) c ∧ c.line = 31 := by
  have hl : 1 ≤ Nat.sqrt n := Nat.sqrt_pos.2 hn
  obtain ⟨st, hst, hinv, hlog⟩ := foldlM_range'_inv (sieveStepChecked bound 31 n)
    (fun k st => SieveInv n k st.1 ∧ ∀ c ∈ st.2, CallOK n (Nat.sqrt n) c ∧ c.line = 31)
    2 (Nat.sqrt n + 1 - 2) (List.replicate (n + 1) false, [])
    ⟨sieveInv_init n, by simp⟩
    (by
      rintro k ⟨buf, log⟩ hk1 hk2 ⟨hPk, hlog⟩
      have hsq := Nat.sqrt_le_self n
      have hkk := sqrt_sq_le n k (by omega)
      obtain ⟨out, calls, h1, h2, h3⟩ := sieveStepChecked_inv bound 31 n k m buf log hfit hPk
        hk1 (by omega) (by omega) (by omega)
      refine ⟨(out, log ++ calls), h1, h2, ?_⟩
      intro c hc
      rcases List.mem_append.1 hc with hc | hc
      · exact hlog c hc
      · rw [h3 c hc]
        exact ⟨⟨hk1, le_refl _, Or.inl ⟨rfl, rfl, rfl, rfl, hkk⟩⟩, rfl⟩)
  have hfin : ∀ x, 2 ≤ x → x ≤ n → st.1[x]? = some (!decide (Nat.Prime x)) := by
    intro x hx2 hxn
    refine sieveInv_final n _ st.1 hinv ?_ x hx2 hxn
    have h1 := Nat.lt_succ_sqrt n
    have h2 : Nat.sqrt n + 1 ≤ 2 + (Nat.sqrt n + 1 - 2) := by omega
    calc n < (Nat.sqrt n + 1) * (Nat.sqrt n + 1) := h1
      _ ≤ _ := Nat.mul_le_mul h2 h2
  refine ⟨st.2, ?_, hlog⟩
  unfold cache_unfriendly_sieveChecked
  simp only [bind, Except.bind, chk_ok bound (n + 1) m hfit (by omega), hst]
  rw [countLoopChecked_spec bound st.1 (fun x => decide (Nat.Prime x)) 0 2 (n + 1 - 2) 0 m hfit
    (by omega) (by omega) (by intro x h1 h2; simpa using hfin x h1 (by omega))]
  simp [primesFrom, pure, Except.pure]

theorem small_test_bound (limit i : Nat) (hi : 2 ≤ i) (h : i = 2 ∨ (i - 1) * (i - 1) ≤ limit) :
    i * i ≤ max 4 (2 * limit + 1) := by
  rcases h with h | h
  · subst h
    exact le_max_left _ _
  · obtain ⟨j, rfl⟩ : ∃ j, i = j + 1 := ⟨i - 1, by omega⟩
    simp only [Nat.add_sub_cancel] at h
    rcases Nat.lt_or_ge j 2 with hj | hj
    · have : j = 1 := by omega
      subst this
      exact le_max_left _ _
    · have h2 : 2 * j ≤ j * j := Nat.mul_le_mul_right j hj
      have : (j + 1) * (j + 1) = j * j + 2 * j + 1 := by ring
      rw [this]
      exact le_trans (by omega) (le_max_right _ _)

theorem smallSieveLoopChecked_spec (bound : Option Nat) (n limit m : Nat)
    (hfit : Fits bound m) (hm4 : 4 ≤ m) (hm : 2 * limit + 1 ≤ m) :
    ∀ (fuel : Nat) (st : List Bool × List MarkCall) (i : Nat), SieveInv limit i st.1 →
      2 ≤ i → (i = 2 ∨ (i - 1) * (i - 1) ≤ limit) → limit + 1 - i < fuel →
      (∀ c ∈ st.2, CallOK n limit c ∧ c.line = 60) →
      ∃ out k, smallSieveLoopChecked bound fuel limit st i = .ok out ∧
        SieveInv limit k out.1 ∧ limit < k * k ∧
        ∀ c ∈ out.2, CallOK n limit c ∧ c.line = 60 := by
  intro fuel
  induction fuel with
  | zero => intro st i _ _ _ h; omega
  | succ fuel ih =>
    rintro ⟨buf, log⟩ i hinv hi hprev hfuel hlog
    have hii : i * i ≤ m :=
      le_trans (small_test_bound limit i hi hprev) (max_le hm4 hm)
    unfold smallSieveLoopChecked
    simp only [chk_ok bound (i * i) m hfit hii]
    by_cases hc : i * i ≤ limit
    · have hil : i ≤ limit := by nlinarith
      obtain ⟨out, calls, h1, h2, h3⟩ := sieveStepChecked_inv bound 60 limit i m buf log hfit
        hinv hi hil hii (by omega)
      obtain ⟨out', k, h4, h5, h6, h7⟩ := ih (out, log ++ calls) (i + 1) h2 (by omega)
        (Or.inr (by simpa using hc)) (by omega)
        (by
          intro c hcm
          rcases List.mem_append.1 hcm with hcm | hcm
          · exact hlog c hcm
          · rw [h3 c hcm]
            exact ⟨⟨hi, le_refl _, Or.inr (Or.inl ⟨rfl, rfl, rfl, rfl, hc⟩)⟩, rfl⟩)
      exact ⟨out', k, by simp only [hc, if_true, h1]; exact h4, h5, h6, h7⟩
    · exact ⟨(buf, log), i, by simp [hc], hinv, by omega, hlog⟩

theorem collectLoopChecked_spec (bound : Option Nat) (limit m : Nat) (buf : List Bool)
    (hfit : Fits bound m) (hm : limit + 1 ≤ m)
    (h : ∀ x, 2 ≤ x → x ≤ limit → buf[x]? = some (!decide (Nat.Prime x))) :
    (List.range' 2 (limit + 1 - 2)).foldlM (collectStepChecked bound limit buf)
        { primes := [], prime_count := 0, count := 0 } =
      .ok { primes := primeList 2 (limit + 1 - 2),
            prime_count := primesFrom 2 (limit + 1 - 2),
            count := primesFrom 2 (limit + 1 - 2) } := by
  obtain ⟨st, hst, hP⟩ := foldlM_range'_inv (collectStepChecked bound limit buf)
    (fun k st => st = { primes := primeList 2 (k - 2), prime_count := primesFrom 2 (k - 2),
                        count := primesFrom 2 (k - 2) })
    2 (limit + 1 - 2) { primes := [], prime_count := 0, count := 0 }
    (by simp [primeList, primesFrom])
    (by
      intro k st hk1 hk2 hPk
      have hk : k + 1 - 2 = (k - 2) + 1 := by omega
      have hk' : 2 + (k - 2) = k := by omega
      have hle := primesFrom_le_len 2 (k - 2)
      subst hPk
      by_cases hp : Nat.Prime k
      · refine ⟨_, ?_, rfl⟩
        have hcap : primesFrom 2 (k - 2) < limit + 1 := by omega
        unfold collectStepChecked
        simp only [readAt, h k hk1 (by omega), hp, decide_True, Bool.not_true, Bool.not_false,
          if_true, hcap, chk_ok bound (primesFrom 2 (k - 2) + 1) m hfit (by omega),
          advance_ok bound k m _ hfit (by omega)]
        simp [hk, primeList_succ, primesFrom_succ, hk', hp]
      · refine ⟨_, ?_, rfl⟩
        unfold collectStepChecked
        simp only [readAt, h k hk1 (by omega), hp, decide_False, Bool.not_false,
          Bool.not_true, advance_ok bound k m _ hfit (by omega : k + 1 ≤ m)]
        simp [hk, primeList_succ, primesFrom_succ, hk', hp])
  rw [hst, hP]
  have : 2 + (limit + 1 - 2) - 2 = limit + 1 - 2 := by omega
  rw [this]

theorem friendlyBaseChecked_spec (bound : Option Nat) (n m : Nat) (hfit : Fits bound m)
    (hm4 : 4 ≤ m) (hm : 2 * Nat.sqrt n + 1 ≤ m) :
    ∃ log, friendlyBaseChecked bound n =
        .ok ({ primes := primeList 2 (Nat.sqrt n + 1 - 2),
               prime_count := primesFrom 2 (Nat.sqrt n + 1 - 2),
               count := primesFrom 2 (Nat.sqrt n + 1 - 2) }, log) ∧
      ∀ c ∈ log, CallOK n (Nat.sqrt n) c ∧ c.line = 60 := by
  obtain ⟨out, k, h1, h2, h3, h4⟩ := smallSieveLoopChecked_spec bound n (Nat.sqrt n) m hfit
    hm4 hm (Nat.sqrt n + 1) (List.replicate (Nat.sqrt n + 1) false, []) 2 (sieveInv_init _)
    (le_refl 2) (Or.inl rfl) (by omega) (by simp)
  refine ⟨out.2, ?_, h4⟩
  unfold friendlyBaseChecked
  simp only [bind, Except.bind, chk_ok bound (Nat.sqrt n + 1) m hfit (by omega), h1]
  rw [collectLoopChecked_spec bound (Nat.sqrt n) m out.1 hfit (by omega)
    (fun x hx2 hxl => sieveInv_final _ k out.1 h2 h3 x hx2 hxl)]
  rfl


theorem startIdxChecked_ok (bound : Option Nat) (s p m : Nat) (hfit : Fits bound m)
    (hp : 1 ≤ p) (h : s + p ≤ m) : startIdxChecked bound s p = .ok (startIdx s p) := by
  have hq : (s + p - 1) / p * p ≤ s + p - 1 := Nat.div_mul_le_self _ _
  unfold startIdxChecked
  simp only [bind, Except.bind, chk_ok bound (s + p) m hfit h, chkSub_ok (s + p) 1 (by omega),
    chkDiv_ok (s + p - 1) p hp, chk_ok bound ((s + p - 1) / p * p) m hfit (by omega)]
  rfl

theorem startIdx_facts (s p : Nat) (hp : 1 ≤ p) :
    s ≤ startIdx s p ∧ startIdx s p - s < p := by
  obtain ⟨-, h1, h2⟩ := firstMultiple_spec s p hp
  unfold startIdx
  exact ⟨h1, by omega⟩

theorem segmentMarkStepChecked_spec (bound : Option Nat) (ps : List Nat) (s hi m k : Nat)
    (line : Nat) (seg : List Bool) (hfit : Fits bound m)
    (hk : k < ps.length) (hp : 1 ≤ ps[k]) (hhp : hi + ps[k] ≤ m) (hlen : hi < seg.length) :
    ∃ out, mark seg (startIdx s ps[k] - s) ps[k] hi = .ok (out, startIdx s ps[k] - s) ∧
      markChecked bound line seg (startIdx s ps[k] - s) ps[k] hi =
        .ok (out, [{ line := line, len := seg.length, i := startIdx s ps[k] - s,
                     step := ps[k], limit := hi }]) ∧
      out.length = seg.length ∧
      ∀ x, out[x]? = if x ≤ hi ∧ ps[k] ∣ s + x then some true else seg[x]? := by
  obtain ⟨out, h1, h2, h3⟩ := mark_window seg s ps[k] hi hp hlen
  exact ⟨out, h1, markChecked_of_mark bound line seg out _ ps[k] hi m hfit hhp h1, h2, h3⟩

theorem friendlySegmentChecked_spec (bound : Option Nat) (ps : List Nat) (s e limit m : Nat)
    (hfit : Fits bound m) (hps : ∀ p ∈ ps, 2 ≤ p ∧ p ≤ limit) (hlen : ps.length ≤ limit)
    (hse : s ≤ e) (hsz : e - s + 1 ≤ limit) (hm : s + limit ≤ m) (hs : limit < s) :
    ∃ seg log, friendlySegmentChecked bound ps ps.length s e = .ok (seg, log) ∧
      seg.length = e - s + 1 ∧
      (∀ x, x ≤ e - s → seg[x]? = some (ps.any (fun p => decide (p ∣ s + x)))) ∧
      ∀ c ∈ log, c.line = 92 ∧ 2 ≤ c.step ∧ c.len = c.limit + 1 ∧ c.limit = e - s ∧
        c.i < c.step := by
  obtain ⟨st, hst, hl, hx, hlog⟩ := foldlM_range'_inv (segmentMarkStepChecked bound ps s e)
    (fun k st => st.1.length = e - s + 1 ∧
      (∀ x, x ≤ e - s → st.1[x]? = some ((ps.take k).any (fun p => decide (p ∣ s + x)))) ∧
      ∀ c ∈ st.2, c.line = 92 ∧ 2 ≤ c.step ∧ c.len = c.limit + 1 ∧ c.limit = e - s ∧
        c.i < c.step)
    0 ps.length (List.replicate (e - s + 1) false, [])
    ⟨by simp, by
      intro x hx
      rw [List.getElem?_replicate]
      simp
      omega, by simp⟩
    (by
      rintro k ⟨seg, log⟩ - hk ⟨hl, hinv, hlog⟩
      have hk' : k < ps.length := by omega
      have hget : ps[k]? = some ps[k] := List.getElem?_eq_getElem hk'
      obtain ⟨hp2, hpl⟩ := hps _ (List.getElem_mem hk')
      obtain ⟨hs1, hs2⟩ := startIdx_facts s ps[k] (by omega)
      obtain ⟨out, -, h1, h2, h3⟩ := segmentMarkStepChecked_spec bound ps s (e - s) m k 92 seg
        hfit hk' (by omega) (by omega) (by simp only at hl; omega)
      refine ⟨(out, log ++ [(⟨92, seg.length, startIdx s ps[k] - s, ps[k], e - s⟩ : MarkCall)]),
        ?_, by simp only at hl ⊢; omega, ?_, ?_⟩
      · unfold segmentMarkStepChecked
        simp only [bind, Except.bind, readAt, hget,
          startIdxChecked_ok bound s ps[k] m hfit (by omega) (by omega),
          chkSub_ok _ _ hs1, chkSub_ok _ _ hse, h1, advance_ok bound k m _ hfit (by omega)]
      · intro x hxe
        simp only
        rw [h3 x, List.take_succ, hget, Option.toList_some, List.any_append, List.any_cons,
          List.any_nil, Bool.or_false, hinv x hxe]
        by_cases hd : ps[k] ∣ s + x <;> simp [hxe, hd]
      · intro c hc
        rcases List.mem_append.1 hc with hc | hc
        · exact hlog c hc
        · simp only [List.mem_singleton] at hc
          subst hc
          simp only at hl
          exact ⟨rfl, hp2, by simp only; omega, rfl, hs2⟩)
  refine ⟨st.1, st.2, ?_, hl, ?_, hlog⟩
  · unfold friendlySegmentChecked
    simp only [bind, Except.bind, chkSub_ok _ _ hse,
      chk_ok bound (e - s + 1) m hfit (by omega)]
    rw [List.range_eq_range']
    exact hst
  · intro x hxe
    have := hx x hxe
    simpa using this

theorem survivors_le (ps : List Nat) (s len : Nat) : survivors ps s len ≤ len := by
  unfold survivors
  exact (List.countP_le_length _).trans (by simp)

theorem friendlyWindowChecked_spec (bound : Option Nat) (ps : List Nat)
    (count s e limit m : Nat) (hfit : Fits bound m) (hps : ∀ p ∈ ps, 2 ≤ p ∧ p ≤ limit)
    (hlen : ps.length ≤ limit) (hse : s ≤ e) (hsz : e - s + 1 ≤ limit) (hm : s + limit ≤ m)
    (hs : limit < s) (hcnt : count + (e - s + 1) ≤ m) :
    ∃ log, friendlyWindowChecked bound ps ps.length count s e =
        .ok (count + survivors ps s (e - s + 1), log) ∧
      ∀ c ∈ log, c.line = 92 ∧ 2 ≤ c.step ∧ c.len = c.limit + 1 ∧ c.limit = e - s ∧
        c.i < c.step := by
  obtain ⟨seg, log, hseg, hl, hx, hlog⟩ := friendlySegmentChecked_spec bound ps s e limit m hfit
    hps hlen hse hsz hm hs
  refine ⟨log, ?_, hlog⟩
  unfold friendlyWindowChecked
  simp only [bind, Except.bind, hseg]
  rw [List.range_eq_range']
  rw [countLoopChecked_spec bound seg (fun y => !(ps.any (fun p => decide (p ∣ y)))) s 0
    (e - s + 1) count m hfit hcnt (by omega)
    (by
      intro x _ hx2
      rw [hx x (by omega)]
      simp)]
  simp [survivors, pure, Except.pure]

theorem windowEndChecked_ok (bound : Option Nat) (n limit s m : Nat) (hfit : Fits bound m)
    (hl : 1 ≤ limit) (hm : s + limit ≤ m) :
    windowEndChecked bound n limit s = .ok (windowEnd n limit s) := by
  unfold windowEndChecked
  simp only [bind, Except.bind, chk_ok bound (s + limit) m hfit hm,
    chkSub_ok (s + limit) 1 (by omega)]
  rfl

theorem windowLoopChecked_spec (bound : Option Nat) (n limit m : Nat) (ps : List Nat)
    (hfit : Fits bound m) (hps : ∀ p ∈ ps, 2 ≤ p ∧ p ≤ limit) (hlen : ps.length ≤ limit)
    (hl : 1 ≤ limit) (hm : n + limit ≤ m) :
    ∀ (fuel : Nat) (st : Nat × List MarkCall) (s : Nat), limit < s → n + 1 - s < fuel →
      st.1 + (n + 1 - s) ≤ m →
      (∀ c ∈ st.2, CallOK n limit c ∧ (c.line = 60 ∨ c.line = 92)) →
      ∃ log, windowLoopChecked bound fuel n limit ps ps.length st s =
          .ok (st.1 + survivors ps s (n + 1 - s), log) ∧
        ∀ c ∈ log, CallOK n limit c ∧ (c.line = 60 ∨ c.line = 92) := by
  intro fuel
  induction fuel with
  | zero => intro st s _ h; omega
  | succ fuel ih =>
    rintro ⟨count, log⟩ s hs hfuel hcnt hlog
    unfold windowLoopChecked
    by_cases hsn : s ≤ n
    · obtain ⟨h1, h2, h3⟩ := windowEnd_bounds n limit s hl hsn
      obtain ⟨calls, hw, hcalls⟩ := friendlyWindowChecked_spec bound ps count s
        (windowEnd n limit s) limit m hfit hps hlen h1 (by omega) (by omega) hs
        (by simp only at hcnt; omega)
      have hsv := survivors_le ps s (windowEnd n limit s - s + 1)
      obtain ⟨log', hrec, hlog'⟩ := ih
        (count + survivors ps s (windowEnd n limit s - s + 1), log ++ calls) (s + limit)
        (by omega) (by omega) (by simp only at hcnt ⊢; omega)
        (by
          intro c hc
          rcases List.mem_append.1 hc with hc | hc
          · exact hlog c hc
          · obtain ⟨c1, c2, c3, c4, c5⟩ := hcalls c hc
            exact ⟨⟨c2, by omega, Or.inr (Or.inr (Or.inl ⟨c1, c3, by omega, c5⟩))⟩,
              Or.inr c1⟩)
      refine ⟨log', ?_, hlog'⟩
      simp only [hsn, if_true, windowEndChecked_ok bound n limit s m hfit hl (by omega), hw,
        chk_ok bound (s + limit) m hfit (by omega), hrec]
      congr 2
      rw [h3, Nat.add_assoc, survivors_split_window]
    · have : n + 1 - s = 0 := by omega
      exact ⟨log, by simp [hsn, this, survivors], hlog⟩


theorem basePrimes_bounds (limit : Nat) :
    (∀ p ∈ primeList 2 (limit + 1 - 2), 2 ≤ p ∧ p ≤ limit) ∧
      (primeList 2 (limit + 1 - 2)).length ≤ limit := by
  constructor
  · intro p hp
    obtain ⟨h1, h2⟩ := (mem_basePrimes limit p).1 hp
    exact ⟨h1.two_le, h2⟩
  · rw [primeList_length]
    have := primesFrom_le_len 2 (limit + 1 - 2)
    omega

theorem cache_friendly_sieveChecked_spec (bound : Option Nat) (n m : Nat) (hn : 2 ≤ n)
    (hfit : Fits bound m) (hm4 : 4 ≤ m) (hm : n + Nat.sqrt n ≤ m) :
    ∃ log, cache_friendly_sieveChecked bound n = .ok (primesFrom 2 (n + 1 - 2), log) ∧
      ∀ c ∈ log, CallOK n (Nat.sqrt n) c ∧ (c.line = 60 ∨ c.line = 92) := by
  have hl : 1 ≤ Nat.sqrt n := Nat.sqrt_pos.2 (by omega)
  have hle := sqrt_succ_le n hn
  have hlt := Nat.lt_succ_sqrt n
  have hsq := Nat.sqrt_le_self n
  obtain ⟨hps, hlen⟩ := basePrimes_bounds (Nat.sqrt n)
  have hcount := primesFrom_le_len 2 (Nat.sqrt n + 1 - 2)
  obtain ⟨log0, hbase, hlog0⟩ := friendlyBaseChecked_spec bound n m hfit hm4 (by omega)
  rw [← primeList_length] at hbase
  obtain ⟨log, hloop, hlog⟩ := windowLoopChecked_spec bound n (Nat.sqrt n) m
    (primeList 2 (Nat.sqrt n + 1 - 2)) hfit hps hlen hl hm (n + 1)
    ((primeList 2 (Nat.sqrt n + 1 - 2)).length, log0) (Nat.sqrt n + 1) (by omega) (by omega)
    (by simp only; rw [primeList_length]; omega)
    (fun c hc => ⟨(hlog0 c hc).1, Or.inl (hlog0 c hc).2⟩)
  refine ⟨log, ?_, hlog⟩
  unfold cache_friendly_sieveChecked
  simp only [bind, Except.bind, hbase, chk_ok bound (Nat.sqrt n + 1) m hfit (by omega), hloop]
  rw [survivors_basePrimes n (Nat.sqrt n) _ _ hlt (by omega) (by omega), primeList_length,
    primesFrom_split n _ hsq]

theorem parallelBaseChecked_spec (bound : Option Nat) (n m : Nat) (hfit : Fits bound m)
    (hm : n + Nat.sqrt n ≤ m) (hn : 1 ≤ n) :
    ∃ buf log, parallelBaseChecked bound n =
        .ok ({ count := primesFrom 2 (Nat.sqrt n + 1 - 2),
               n_factor := primesFrom 2 (Nat.sqrt n + 1 - 2),
               factor := primeList 2 (Nat.sqrt n + 1 - 2),
               composite := buf }, log) ∧
      ∀ c ∈ log, CallOK n (Nat.sqrt n) c ∧ c.line = 124 := by
  have hl : 1 ≤ Nat.sqrt n := Nat.sqrt_pos.2 hn
  have hsq := Nat.sqrt_le_self n
  obtain ⟨st, hst, hinv, hP, hlog⟩ := foldlM_range'_inv (baseStepChecked bound (Nat.sqrt n))
    (fun k st => SieveInv (Nat.sqrt n) k st.1.composite ∧
      st.1 = { count := primesFrom 2 (k - 2), n_factor := primesFrom 2 (k - 2),
               factor := primeList 2 (k - 2), composite := st.1.composite } ∧
      ∀ c ∈ st.2, CallOK n (Nat.sqrt n) c ∧ c.line = 124)
    2 (Nat.sqrt n + 1 - 2)
    ({ count := 0, n_factor := 0, factor := [],
       composite := List.replicate (Nat.sqrt n + 1) false }, [])
    ⟨sieveInv_init _, by simp [primeList, primesFrom], by simp⟩
    (by
      rintro k ⟨b, log⟩ hk1 hk2 ⟨hinv, hPk, hlog⟩
      simp only at hinv hPk hlog
      have hk : k + 1 - 2 = (k - 2) + 1 := by omega
      have hk' : 2 + (k - 2) = k := by omega
      have hle := primesFrom_le_len 2 (k - 2)
      have hread := sieveInv_read _ k b.composite hinv hk1 (by omega)
      have hkk := sqrt_sq_le n k (by omega)
      by_cases hp : Nat.Prime k
      · obtain ⟨out, hout, hinv'⟩ := sieveInv_mark _ k b.composite hinv hp
        have hcap : b.n_factor < Nat.sqrt n := by rw [hPk]; simp only; omega
        have hc1 : b.count + 1 ≤ m := by rw [hPk]; simp only; omega
        have hc2 : b.n_factor + 1 ≤ m := by rw [hPk]; simp only; omega
        refine ⟨({ count := b.count + 1, n_factor := b.n_factor + 1,
                   factor := b.factor ++ [k], composite := out },
                 log ++ [(⟨124, b.composite.length, k * k, k, Nat.sqrt n⟩ : MarkCall)]),
          ?_, hinv', ?_, ?_⟩
        · unfold baseStepChecked
          simp only [hread, hp, decide_True, Bool.not_true, Bool.not_false, if_true,
            chk_ok bound (b.count + 1) m hfit hc1, chk_ok bound (k * k) m hfit (by omega),
            markChecked_of_mark bound 124 b.composite out (k * k) k (Nat.sqrt n) m hfit
              (by omega) hout,
            hcap, chk_ok bound (b.n_factor + 1) m hfit hc2,
            advance_ok bound k m _ hfit (by omega)]
        · simp only
          rw [hPk]
          simp [hk, primeList_succ, primesFrom_succ, hk', hp]
        · intro c hc
          rcases List.mem_append.1 hc with hc | hc
          · exact hlog c hc
          · simp only [List.mem_singleton] at hc
            subst hc
            exact ⟨⟨hk1, by simp only; rw [hinv.1], Or.inr (Or.inr (Or.inr (Or.inl
              ⟨rfl, hinv.1, rfl, rfl⟩)))⟩, rfl⟩
      · refine ⟨(b, log), ?_, sieveInv_skip _ k b.composite hinv hp, ?_, hlog⟩
        · unfold baseStepChecked
          simp only [hread, hp, decide_False, Bool.not_false, Bool.not_true,
            advance_ok bound k m _ hfit (by omega : k + 1 ≤ m)]
          simp
        · simp only
          rw [hPk]
          simp [hk, primeList_succ, primesFrom_succ, hk', hp])
  refine ⟨st.1.composite, st.2, ?_, hlog⟩
  unfold parallelBaseChecked
  simp only [bind, Except.bind, chk_ok bound (Nat.sqrt n + 1) m hfit (by omega)]
  rw [hst]
  have : 2 + (Nat.sqrt n + 1 - 2) - 2 = Nat.sqrt n + 1 - 2 := by omega
  rw [this] at hP
  congr 1
  rw [Prod.ext_iff]
  exact ⟨hP, rfl⟩


theorem markerLoopChecked_spec (bound : Option Nat) (ps : List Nat) (w limit m : Nat)
    (hfit : Fits bound m) (hps : ∀ p ∈ ps, 2 ≤ p ∧ p ≤ limit) (hlen : ps.length ≤ limit)
    (hm : w + limit ≤ m) :
    (List.range ps.length).foldlM (markerStepChecked bound ps.length ps w) [] =
      .ok (ps.map (markerOffset w)) := by
  obtain ⟨mk, hmk, hP⟩ := foldlM_range'_inv (markerStepChecked bound ps.length ps w)
    (fun k mk => mk = (ps.take k).map (markerOffset w))
    0 ps.length [] (by simp)
    (by
      intro k mk _ hk hPk
      have hk' : k < ps.length := by omega
      have hget : ps[k]? = some ps[k] := List.getElem?_eq_getElem hk'
      obtain ⟨hp2, hpl⟩ := hps _ (List.getElem_mem hk')
      obtain ⟨hs1, -⟩ := startIdx_facts w ps[k] (by omega)
      refine ⟨mk ++ [markerOffset w ps[k]], ?_, ?_⟩
      · unfold markerStepChecked
        simp only [bind, Except.bind, readAt, hget,
          startIdxChecked_ok bound w ps[k] m hfit (by omega) (by omega),
          chkSub_ok _ _ hs1, hk', if_true, advance_ok bound k m _ hfit (by omega)]
        rfl
      · show _ = (ps.take (k + 1)).map _
        rw [List.take_succ, hget, Option.toList_some, List.map_append, hPk]
        rfl)
  rw [List.range_eq_range', hmk, hP]
  simp

theorem parallelWindowChecked_spec (bound : Option Nat) (n limit m : Nat) (ps : List Nat)
    (count w : Nat) (log : List MarkCall) (hfit : Fits bound m)
    (hps : ∀ p ∈ ps, 2 ≤ p ∧ p ≤ limit) (hlen : ps.length ≤ limit) (hl : 1 ≤ limit)
    (hm : n + limit ≤ m) (hw : limit < w) (hwn : w ≤ n)
    (hcnt : count + (windowEnd n limit w - w + 1) ≤ m) :
    ∃ calls, parallelWindowChecked bound n limit ps.length ps (count, log) w =
        .ok (count + windowSurvivors n limit ps w, log ++ calls) ∧
      ∀ c ∈ calls, c.line = 153 ∧ 2 ≤ c.step ∧ c.len = limit + 1 ∧ c.limit + 1 ≤ limit ∧
        c.i < c.step := by
  obtain ⟨hw1, hw2, hw3⟩ := windowEnd_bounds n limit w hl hwn
  have hhi : windowEnd n limit w - w + 1 ≤ limit := by omega
  obtain ⟨st, hst, hlen', hx, hlog⟩ := foldlM_range'_inv
    (localMarkStepChecked bound ps (ps.map (markerOffset w)) w (windowEnd n limit w))
    (fun k st => st.1.length = limit + 1 ∧
      (∀ x, x ≤ windowEnd n limit w - w →
        st.1[x]? = some ((ps.take k).any (fun p => decide (p ∣ w + x)))) ∧
      ∀ c ∈ st.2, c.line = 153 ∧ 2 ≤ c.step ∧ c.len = limit + 1 ∧ c.limit + 1 ≤ limit ∧
        c.i < c.step)
    0 ps.length (List.replicate (limit + 1) false, [])
    ⟨by simp, by
      intro x hx
      rw [List.getElem?_replicate]
      simp
      omega, by simp⟩
    (by
      rintro k ⟨seg, lg⟩ - hk ⟨hsl, hinv, hlg⟩
      simp only at hsl hinv hlg
      have hk' : k < ps.length := by omega
      have hget : ps[k]? = some ps[k] := List.getElem?_eq_getElem hk'
      obtain ⟨hp2, hpl⟩ := hps _ (List.getElem_mem hk')
      obtain ⟨hs1, hs2⟩ := startIdx_facts w ps[k] (by omega)
      obtain ⟨out, -, h1, h2, h3⟩ := segmentMarkStepChecked_spec bound ps w
        (windowEnd n limit w - w) m k 153 seg hfit hk' (by omega) (by omega) (by omega)
      refine ⟨(out, lg ++ [(⟨153, seg.length, startIdx w ps[k] - w, ps[k],
        windowEnd n limit w - w⟩ : MarkCall)]), ?_, by simp only; omega, ?_, ?_⟩
      · unfold localMarkStepChecked
        have hmg : (ps.map (markerOffset w))[k]? = some (startIdx w ps[k] - w) := by
          rw [List.getElem?_map, hget]
          rfl
        simp only [bind, Except.bind, readAt, hget, hmg, chkSub_ok _ _ hw1, h1,
          advance_ok bound k m _ hfit (by omega)]
      · intro x hxe
        simp only
        rw [h3 x, List.take_succ, hget, Option.toList_some, List.any_append, List.any_cons,
          List.any_nil, Bool.or_false, hinv x hxe]
        by_cases hd : ps[k] ∣ w + x <;> simp [hxe, hd]
      · intro c hc
        rcases List.mem_append.1 hc with hc | hc
        · exact hlg c hc
        · simp only [List.mem_singleton] at hc
          subst hc
          exact ⟨rfl, hp2, hsl, by simp only; omega, hs2⟩)
  refine ⟨st.2, ?_, hlog⟩
  have hx' : ∀ x, x ≤ windowEnd n limit w - w →
      st.1[x]? = some (ps.any (fun p => decide (p ∣ w + x))) := by
    intro x hxe
    have := hx x hxe
    simpa using this
  unfold parallelWindowChecked
  simp only [bind, Except.bind, chk_ok bound (limit + 1) m hfit (by omega),
    windowEndChecked_ok bound n limit w m hfit hl (by omega),
    markerLoopChecked_spec bound ps w limit m hfit hps hlen (by omega)]
  rw [List.range_eq_range', hst]
  simp only [chkSub_ok _ _ hw1]
  rw [countLoopChecked_spec bound st.1 (fun y => !(ps.any (fun p => decide (p ∣ y)))) w 0
    (windowEnd n limit w - w + 1) count m hfit hcnt (by omega)
    (by
      intro x _ hx2
      rw [hx' x (by omega)]
      simp)]
  simp only [chk_ok bound (w + limit) m hfit (by omega), pure, Except.pure]
  simp [windowSurvivors, survivors]

theorem parallelFoldChecked_spec (bound : Option Nat) (n limit m : Nat) (ps : List Nat)
    (hfit : Fits bound m) (hps : ∀ p ∈ ps, 2 ≤ p ∧ p ≤ limit) (hlen : ps.length ≤ limit)
    (hl : 1 ≤ limit) (hm : n + limit ≤ m) :
    ∀ (c s : Nat) (st : Nat × List MarkCall), limit < s → n + 1 ≤ s + c * limit →
      (1 ≤ c → s + (c - 1) * limit ≤ n) → st.1 + (n + 1 - s) ≤ m →
      (∀ x ∈ st.2, CallOK n limit x ∧ (x.line = 124 ∨ x.line = 153)) →
      ∃ log, (List.range' s c limit).foldlM
          (parallelWindowChecked bound n limit ps.length ps) st =
          .ok (st.1 + survivors ps s (n + 1 - s), log) ∧
        ∀ x ∈ log, CallOK n limit x ∧ (x.line = 124 ∨ x.line = 153) := by
  intro c
  induction c with
  | zero =>
    rintro s ⟨count, log⟩ _ h1 _ _ hlog
    have : n + 1 - s = 0 := by omega
    exact ⟨log, by simp [this, survivors, pure, Except.pure], hlog⟩
  | succ c ih =>
    rintro s ⟨count, log⟩ hs h1 h2 hcnt hlog
    have hmul : (c + 1) * limit = c * limit + limit := Nat.succ_mul c limit
    have h2' := h2 (by omega)
    simp only [Nat.add_sub_cancel] at h2' hcnt
    have hsn : s ≤ n := by
      have : s ≤ s + c * limit := Nat.le_add_right _ _
      omega
    obtain ⟨hw1, hw2, hw3⟩ := windowEnd_bounds n limit s hl hsn
    obtain ⟨calls, hwin, hcalls⟩ := parallelWindowChecked_spec bound n limit m ps count s log
      hfit hps hlen hl hm hs hsn (by omega)
    have hsv := survivors_le ps s (windowEnd n limit s - s + 1)
    obtain ⟨log', hrec, hlog'⟩ := ih (s + limit)
      (count + windowSurvivors n limit ps s, log ++ calls) (by omega) (by omega)
      (by
        intro hc
        obtain ⟨d, rfl⟩ : ∃ d, c = d + 1 := ⟨c - 1, by omega⟩
        have hm' : (d + 1) * limit = d * limit + limit := Nat.succ_mul d limit
        simp only [Nat.add_sub_cancel]
        omega)
      (by simp only [windowSurvivors]; omega)
      (by
        intro x hx
        rcases List.mem_append.1 hx with hx | hx
        · exact hlog x hx
        · obtain ⟨c1, c2, c3, c4, c5⟩ := hcalls x hx
          exact ⟨⟨c2, by omega, Or.inr (Or.inr (Or.inr (Or.inr ⟨c1, c3, c4, c5⟩)))⟩,
            Or.inr c1⟩)
    refine ⟨log', ?_, hlog'⟩
    rw [List.range'_succ, List.foldlM_cons, hwin]
    simp only [bind, Except.bind, hrec]
    congr 2
    unfold windowSurvivors
    rw [hw3, Nat.add_assoc, survivors_split_window]

theorem parallel_sieveChecked_spec (bound : Option Nat) (n m : Nat) (hn : 2 ≤ n)
    (hfit : Fits bound m) (hm : n + Nat.sqrt n ≤ m) :
    ∃ log, parallel_sieveChecked bound n = .ok (primesFrom 2 (n + 1 - 2), log) ∧
      ∀ c ∈ log, CallOK n (Nat.sqrt n) c ∧ (c.line = 124 ∨ c.line = 153) := by
  have hl : 1 ≤ Nat.sqrt n := Nat.sqrt_pos.2 (by omega)
  have hle := sqrt_succ_le n hn
  have hlt := Nat.lt_succ_sqrt n
  have hsq := Nat.sqrt_le_self n
  obtain ⟨hps, hlen⟩ := basePrimes_bounds (Nat.sqrt n)
  have hcount := primesFrom_le_len 2 (Nat.sqrt n + 1 - 2)
  obtain ⟨buf, log0, hbase, hlog0⟩ := parallelBaseChecked_spec bound n m hfit hm (by omega)
  rw [← primeList_length] at hbase
  obtain ⟨h1, h2, -⟩ := tripCount_bounds n (Nat.sqrt n) hl hle
  obtain ⟨log, hfold, hlog⟩ := parallelFoldChecked_spec bound n (Nat.sqrt n) m
    (primeList 2 (Nat.sqrt n + 1 - 2)) hfit hps hlen hl hm
    ((n - (Nat.sqrt n + 1)) / Nat.sqrt n + 1) (Nat.sqrt n + 1)
    ((primeList 2 (Nat.sqrt n + 1 - 2)).length, log0) (by omega) h1
    (by intro _; simp only [Nat.add_sub_cancel]; exact h2)
    (by simp only; rw [primeList_length]; omega)
    (fun c hc => ⟨(hlog0 c hc).1, Or.inl (hlog0 c hc).2⟩)
  refine ⟨log, ?_, hlog⟩
  unfold parallel_sieveChecked parallelWindows
  simp only [bind, Except.bind, hbase, hle, if_true, hfold]
  rw [survivors_basePrimes n (Nat.sqrt n) _ _ hlt (by omega) (by omega), primeList_length,
    primesFrom_split n _ hsq]


theorem sqrt_eq_of_sq_bounds (n k : Nat) (h1 : k * k ≤ n) (h2 : n < (k + 1) * (k + 1)) :
    Nat.sqrt n = k :=
  (Nat.eq_sqrt.2 ⟨h1, h2⟩).symm

theorem primesFrom_thousand : primesFrom 2 (1000 + 1 - 2) = 168 := by
  have h1 := cache_friendly_sieve_eq 1000
  have h2 : cache_friendly_sieve 1000 = .ok 168 := by
    unfold cache_friendly_sieve friendlyBase
    rw [sqrt_eq_of_sq_bounds 1000 31 (by norm_num) (by norm_num)]
    decide!
  rw [h1] at h2
  exact Except.ok.inj h2

theorem primesFrom_hundred : primesFrom 2 (100 + 1 - 2) = 25 := by
  have h1 := cache_friendly_sieve_eq 100
  have h2 : cache_friendly_sieve 100 = .ok 25 := by
    unfold cache_friendly_sieve friendlyBase
    rw [sqrt_eq_of_sq_bounds 100 10 (by norm_num) (by norm_num)]
    decide!
  rw [h1] at h2
  exact Except.ok.inj h2

theorem primesFrom_ten : primesFrom 2 (10 + 1 - 2) = 4 := by
  have h1 := cache_friendly_sieve_eq 10
  have h2 : cache_friendly_sieve 10 = .ok 4 := by
    unfold cache_friendly_sieve friendlyBase
    rw [sqrt_eq_of_sq_bounds 10 3 (by norm_num) (by norm_num)]
    decide!
  rw [h1] at h2
  exact Except.ok.inj h2

theorem primesFrom_two_two : primesFrom 2 (2 + 1 - 2) = 1 := by
  have h1 := cache_friendly_sieve_eq 2
  have h2 : cache_friendly_sieve 2 = .ok 1 := by
    unfold cache_friendly_sieve friendlyBase
    rw [sqrt_eq_of_sq_bounds 2 1 (by norm_num) (by norm_num)]
    decide!
  rw [h1] at h2
  exact Except.ok.inj h2

/-- C5: each of the three sieves returns 1 for n = 2, 4 for n = 10, 25 for
n = 100 and 168 for n = 1000. -/
theorem C5_known_values :
    (cache_unfriendly_sieve 2 = .ok 1 ∧ cache_unfriendly_sieve 10 = .ok 4 ∧
      cache_unfriendly_sieve 100 = .ok 25 ∧ cache_unfriendly_sieve 1000 = .ok 168) ∧
    (cache_friendly_sieve 2 = .ok 1 ∧ cache_friendly_sieve 10 = .ok 4 ∧
      cache_friendly_sieve 100 = .ok 25 ∧ cache_friendly_sieve 1000 = .ok 168) ∧
    (parallel_sieve 2 = .ok 1 ∧ parallel_sieve 10 = .ok 4 ∧
      parallel_sieve 100 = .ok 25 ∧ parallel_sieve 1000 = .ok 168) := by
  simp only [cache_unfriendly_sieve_eq, cache_friendly_sieve_eq, parallel_sieve_eq,
    primesFrom_two_two, primesFrom_ten, primesFrom_hundred, primesFrom_thousand, and_self]


/-- C1: for every n ≥ 2, cache_unfriendly_sieve n returns the number of primes p
with 2 ≤ p ≤ n. -/
theorem C1_unfriendly_counts_primes (n : Nat) (_hn : 2 ≤ n) :
    cache_unfriendly_sieve n = .ok ((Finset.Icc 2 n).filter Nat.Prime).card := by
  rw [cache_unfriendly_sieve_eq, primesFrom_two]

theorem C1_unfriendly_counts_primes_witness :
    2 ≤ 10 ∧ cache_unfriendly_sieve 10 = .ok ((Finset.Icc 2 10).filter Nat.Prime).card :=
  ⟨by decide, C1_unfriendly_counts_primes 10 (by decide)⟩

/-- C2: for every n ≥ 2, cache_friendly_sieve n returns a count, and it is the
count returned by cache_unfriendly_sieve n. -/
theorem C2_friendly_eq_unfriendly (n : Nat) (_hn : 2 ≤ n) :
    ∃ c, cache_unfriendly_sieve n = .ok c ∧ cache_friendly_sieve n = .ok c :=
  ⟨_, cache_unfriendly_sieve_eq n, cache_friendly_sieve_eq n⟩

theorem C2_friendly_eq_unfriendly_witness :
    2 ≤ 49 ∧ ∃ c, cache_unfriendly_sieve 49 = .ok c ∧ cache_friendly_sieve 49 = .ok c :=
  ⟨by decide, C2_friendly_eq_unfriendly 49 (by decide)⟩

/-- C3: for every n ≥ 2, parallel_sieve n (base-phase count plus the per-window
counts of the windows limit + 1, 2 * limit + 1, ... ≤ n) returns a count, and it
is the count returned by cache_friendly_sieve n. -/
theorem C3_parallel_eq_friendly (n : Nat) (_hn : 2 ≤ n) :
    ∃ c, cache_friendly_sieve n = .ok c ∧ parallel_sieve n = .ok c :=
  ⟨_, cache_friendly_sieve_eq n, parallel_sieve_eq n⟩

theorem C3_parallel_eq_friendly_witness :
    2 ≤ 49 ∧ ∃ c, cache_friendly_sieve 49 = .ok c ∧ parallel_sieve 49 = .ok c :=
  ⟨by decide, C3_parallel_eq_friendly 49 (by decide)⟩


theorem workerCount_eq (n limit : Nat) (ps : List Nat) (hpos : ∀ p ∈ ps, 1 ≤ p)
    (ws : List Nat) :
    workerCount n limit ps.length ps ws = .ok ((ws.map (windowSurvivors n limit ps)).sum) := by
  unfold workerCount
  rw [workerCount_spec n limit ps hpos ws 0, Nat.zero_add]

theorem forall₂_map_right {α β : Type} (R : α → β → Prop) (f : α → β)
    (l : List α) (h : ∀ a ∈ l, R a (f a)) : List.Forall₂ R l (l.map f) := by
  induction l with
  | nil => exact List.Forall₂.nil
  | cons a l ih =>
    exact List.Forall₂.cons (h a (List.mem_cons_self a l))
      (ih (fun b hb => h b (List.mem_cons_of_mem a hb)))

theorem sum_map_flatten (f : Nat → Nat) (schedule : List (List Nat)) :
    (schedule.map (fun ws => (ws.map f).sum)).sum = (schedule.flatten.map f).sum := by
  induction schedule with
  | nil => rfl
  | cons ws schedule ih => simp [ih]

/-- C4: for every n ≥ 2, every permutation of the window list and every split of
it into per-worker sublists: each worker returns a partial sum of per-window
counts, and the base count plus the sum of the partial sums is the number
parallel_sieve n returns. -/
theorem C4_schedule_independent (n : Nat) (_hn : 2 ≤ n) (schedule : List (List Nat))
    (hperm : schedule.flatten.Perm (parallelWindows n (Nat.sqrt n))) :
    ∃ (base : Base) (partials : List Nat),
      parallelBase n = .ok base ∧
      List.Forall₂
        (fun windows c =>
          workerCount n (Nat.sqrt n) base.n_factor base.factor windows = .ok c)
        schedule partials ∧
      parallelSieveWith n schedule = .ok (base.count + partials.sum) ∧
      parallel_sieve n = .ok (base.count + partials.sum) := by
  obtain ⟨buf, hbase⟩ := parallelBase_spec n
  rw [← primeList_length] at hbase
  have hlt := Nat.lt_succ_sqrt n
  have hsq := Nat.sqrt_le_self n
  have hsum : (primeList 2 (Nat.sqrt n + 1 - 2)).length +
      (schedule.map (fun ws => (ws.map (windowSurvivors n (Nat.sqrt n)
        (primeList 2 (Nat.sqrt n + 1 - 2)))).sum)).sum = primesFrom 2 (n + 1 - 2) := by
    rw [sum_map_flatten, (hperm.map _).sum_eq, parallelWindows_sum n _ _ (sqrt_window_case n),
      survivors_basePrimes n (Nat.sqrt n) _ _ hlt (by omega) (by omega), primeList_length,
      primesFrom_split n _ hsq]
  refine ⟨_, schedule.map (fun ws => (ws.map (windowSurvivors n (Nat.sqrt n)
    (primeList 2 (Nat.sqrt n + 1 - 2)))).sum), hbase, ?_, ?_, ?_⟩
  · apply forall₂_map_right
    intro ws _
    exact workerCount_eq n (Nat.sqrt n) _ (basePrimes_pos _) ws
  · rw [parallelSieveWith_eq n schedule hperm]
    exact congrArg Except.ok hsum.symm
  · rw [parallel_sieve_eq n]
    exact congrArg Except.ok hsum.symm

theorem sqrt_ten : Nat.sqrt 10 = 3 :=
  sqrt_eq_of_sq_bounds 10 3 (by decide) (by decide)

theorem C4_schedule_independent_witness :
    2 ≤ 10 ∧ ([[7], [10, 4]] : List (List Nat)).flatten.Perm (parallelWindows 10 (Nat.sqrt 10)) ∧
    ∃ (base : Base) (partials : List Nat),
      parallelBase 10 = .ok base ∧
      List.Forall₂
        (fun windows c =>
          workerCount 10 (Nat.sqrt 10) base.n_factor base.factor windows = .ok c)
        [[7], [10, 4]] partials ∧
      parallelSieveWith 10 [[7], [10, 4]] = .ok (base.count + partials.sum) ∧
      parallel_sieve 10 = .ok (base.count + partials.sum) :=
  have hperm : ([[7], [10, 4]] : List (List Nat)).flatten.Perm
      (parallelWindows 10 (Nat.sqrt 10)) := by
    rw [sqrt_ten]
    decide
  ⟨by decide, hperm, C4_schedule_independent 10 (by decide) [[7], [10, 4]] hperm⟩

/-- C6: for all 2 ≤ n ≤ m, each of the three sieves returns a count at n and at
m, and the count at n is at most the count at m. -/
theorem C6_monotone (n m : Nat) (_hn : 2 ≤ n) (hnm : n ≤ m) :
    (∃ a b, cache_unfriendly_sieve n = .ok a ∧ cache_unfriendly_sieve m = .ok b ∧ a ≤ b) ∧
    (∃ a b, cache_friendly_sieve n = .ok a ∧ cache_friendly_sieve m = .ok b ∧ a ≤ b) ∧
    (∃ a b, parallel_sieve n = .ok a ∧ parallel_sieve m = .ok b ∧ a ≤ b) :=
  ⟨⟨_, _, cache_unfriendly_sieve_eq n, cache_unfriendly_sieve_eq m, primesFrom_two_mono n m hnm⟩,
   ⟨_, _, cache_friendly_sieve_eq n, cache_friendly_sieve_eq m, primesFrom_two_mono n m hnm⟩,
   ⟨_, _, parallel_sieve_eq n, parallel_sieve_eq m, primesFrom_two_mono n m hnm⟩⟩

theorem C6_monotone_witness :
    2 ≤ 10 ∧ 10 ≤ 100 ∧
    (∃ a b, cache_unfriendly_sieve 10 = .ok a ∧ cache_unfriendly_sieve 100 = .ok b ∧ a ≤ b) ∧
    (∃ a b, cache_friendly_sieve 10 = .ok a ∧ cache_friendly_sieve 100 = .ok b ∧ a ≤ b) ∧
    (∃ a b, parallel_sieve 10 = .ok a ∧ parallel_sieve 100 = .ok b ∧ a ≤ b) :=
  ⟨by decide, by decide, C6_monotone 10 100 (by decide) (by decide)⟩

/-- C9: for every buffer, every i, step ≥ 1 and limit below the buffer length,
mark returns, and afterwards every index j with i ≤ j ≤ limit and (j - i)
divisible by step holds true. -/
theorem C9_mark_postcondition (composite : List Bool) (i step limit : Nat)
    (hstep : 1 ≤ step) (hlimit : limit < composite.length) :
    ∃ out, mark composite i step limit = .ok (out, i) ∧
      ∀ j, i ≤ j → j ≤ limit → step ∣ (j - i) → out[j]? = some true := by
  obtain ⟨out, h1, _, h3⟩ := mark_spec composite i step limit hstep hlimit
  refine ⟨out, h1, ?_⟩
  intro j hj1 hj2 hj3
  rw [h3 j]
  simp [hj1, hj2, hj3]

theorem C9_mark_postcondition_witness :
    1 ≤ 3 ∧ 7 < [false, false, false, false, false, false, false, false].length ∧
    ∃ out, mark [false, false, false, false, false, false, false, false] 1 3 7 = .ok (out, 1) ∧
      ∀ j, 1 ≤ j → j ≤ 7 → 3 ∣ (j - 1) → out[j]? = some true :=
  ⟨by decide, by decide, C9_mark_postcondition _ 1 3 7 (by decide) (by decide)⟩

/-- C10: for every n ≥ 2, the sequential base phase of parallel_sieve returns,
factor holds exactly the primes p ≤ floor(sqrt n), in strictly increasing order
and without duplicates, and count = n_factor = the number of such primes. -/
theorem C10_base_prime_finder (n : Nat) (_hn : 2 ≤ n) :
    ∃ base, parallelBase n = .ok base ∧
      (∀ p, p ∈ base.factor ↔ Nat.Prime p ∧ p ≤ Nat.sqrt n) ∧
      base.factor.Pairwise (· < ·) ∧ base.factor.Nodup ∧
      base.count = base.n_factor ∧ base.n_factor = base.factor.length ∧
      base.n_factor = ((Finset.Icc 2 (Nat.sqrt n)).filter Nat.Prime).card := by
  obtain ⟨buf, hbase⟩ := parallelBase_spec n
  have hpw : (primeList 2 (Nat.sqrt n + 1 - 2)).Pairwise (· < ·) :=
    List.Pairwise.filter _ (List.pairwise_lt_range' 2 _)
  refine ⟨_, hbase, mem_basePrimes _, hpw, ?_, rfl, (primeList_length _ _).symm,
    primesFrom_two _⟩
  exact hpw.imp (fun h => Nat.ne_of_lt h)

theorem C10_base_prime_finder_witness :
    2 ≤ 49 ∧ ∃ base, parallelBase 49 = .ok base ∧
      (∀ p, p ∈ base.factor ↔ Nat.Prime p ∧ p ≤ Nat.sqrt 49) ∧
      base.factor.Pairwise (· < ·) ∧ base.factor.Nodup ∧
      base.count = base.n_factor ∧ base.n_factor = base.factor.length ∧
      base.n_factor = ((Finset.Icc 2 (Nat.sqrt 49)).filter Nat.Prime).card :=
  ⟨by decide, C10_base_prime_finder 49 (by decide)⟩


theorem square_windows (k : Nat) (hk : 2 ≤ k) :
    parallelWindows (k * k) k = List.range' (k + 1) (k - 1) k ∧
      (parallelWindows (k * k) k).head? = some (k + 1) ∧
      (parallelWindows (k * k) k).getLast? = some (k * k - k + 1) ∧
      windowEnd (k * k) k (k * k - k + 1) = k * k ∧
      k * k - k + 1 + (k - 1) = k * k := by
  obtain ⟨j, rfl⟩ : ∃ j, k = j + 2 := ⟨k - 2, by omega⟩
  have e1 : (j + 2) * (j + 2) = j * j + 4 * j + 4 := by ring
  have e2 : (j + 2) * j = j * j + 2 * j := by ring
  have hle : j + 2 + 1 ≤ (j + 2) * (j + 2) := by rw [e1]; omega
  have hdiv : ((j + 2) * (j + 2) - (j + 2 + 1)) / (j + 2) = j := by
    have : (j + 2) * (j + 2) - (j + 2 + 1) = (j + 1) + (j + 2) * j := by rw [e1, e2]; omega
    rw [this, Nat.add_mul_div_left _ _ (by omega : 0 < j + 2),
      Nat.div_eq_of_lt (by omega : j + 1 < j + 2), Nat.zero_add]
  have hw : parallelWindows ((j + 2) * (j + 2)) (j + 2) =
      List.range' (j + 2 + 1) (j + 2 - 1) (j + 2) := by
    unfold parallelWindows
    simp only [hle, if_true, hdiv]
    rfl
  refine ⟨hw, ?_, ?_, ?_, ?_⟩
  · rw [hw]
    have : j + 2 - 1 = j + 1 := by omega
    rw [this, List.range'_succ]
    rfl
  · rw [hw]
    have : j + 2 - 1 = j + 1 := by omega
    rw [this, List.range'_concat, List.getLast?_concat]
    congr 1
    rw [e1, e2]
    omega
  · unfold windowEnd
    simp only
    rw [e1]
    split_ifs <;> omega
  · rw [e1]; omega

theorem square_last_marked (k : Nat) (hk : 2 ≤ k) :
    (primeList 2 (k + 1 - 2)).any (fun p => decide (p ∣ k * k - k + 1 + (k - 1))) = true := by
  have hkk : k * k - k + 1 + (k - 1) = k * k := (square_windows k hk).2.2.2.2
  have h1 : k * k < (k + 1) * (k + 1) := by nlinarith
  have h2 : k < k * k := by nlinarith
  rw [hkk, basePrimes_any (k * k) k (k * k) h1 h2 (le_refl _)]
  have : ¬ Nat.Prime (k * k) := Nat.not_prime_mul (by omega) (by omega)
  simp [this]

theorem basePrimes_count (k : Nat) :
    (primeList 2 (k + 1 - 2)).count k = if Nat.Prime k then 1 else 0 := by
  have hnd : (primeList 2 (k + 1 - 2)).Nodup :=
    (List.nodup_range' 2 _).filter _
  rw [List.count_eq_of_nodup hnd]
  have hmem := mem_basePrimes k k
  by_cases hp : Nat.Prime k
  · rw [if_pos (hmem.2 ⟨hp, le_refl k⟩), if_pos hp]
  · rw [if_neg (fun h => hp (hmem.1 h).1), if_neg hp]

theorem primesFrom_fortynine : primesFrom 2 (49 + 1 - 2) = 15 := by
  have h1 := cache_friendly_sieve_eq 49
  have h2 : cache_friendly_sieve 49 = .ok 15 := by
    unfold cache_friendly_sieve friendlyBase
    rw [sqrt_eq_of_sq_bounds 49 7 (by norm_num) (by norm_num)]
    decide!
  rw [h1] at h2
  exact Except.ok.inj h2

/-- C7: for every k ≥ 2 and n = k * k, limit is k; the base phase of both
segmented sieves lists k exactly once when k is prime (and not at all
otherwise); the windows start at k + 1, 2k + 1, ..., so k is never a window
position; the last window is [k*k - k + 1, k*k] and the flag of n = k * k is
set in it; both sieves return the number of primes ≤ n; and n = 49 gives 15. -/
theorem C7_perfect_square (k : Nat) (hk : 2 ≤ k) :
    Nat.sqrt (k * k) = k ∧
    (∃ base, parallelBase (k * k) = .ok base ∧
      base.factor.count k = (if Nat.Prime k then 1 else 0) ∧
      ∃ seg, parallelSegment (k * k) k base.n_factor base.factor (k * k - k + 1) = .ok seg ∧
        seg[k - 1]? = some true) ∧
    (∃ st, friendlyBase (k * k) = .ok st ∧
      st.primes.count k = (if Nat.Prime k then 1 else 0) ∧
      ∃ seg, friendlySegment st.primes st.prime_count (k * k - k + 1) (k * k) = .ok seg ∧
        seg[k - 1]? = some true) ∧
    parallelWindows (k * k) k = List.range' (k + 1) (k - 1) k ∧
    (parallelWindows (k * k) k).head? = some (k + 1) ∧
    (∀ w ∈ parallelWindows (k * k) k, k < w) ∧
    (parallelWindows (k * k) k).getLast? = some (k * k - k + 1) ∧
    windowEnd (k * k) k (k * k - k + 1) = k * k ∧
    (∀ (ps : List Nat) (pc count : Nat),
      windowLoop (k * k + 1) (k * k) k ps pc count (k + 1) =
        (parallelWindows (k * k) k).foldlM
          (fun cnt w => friendlyWindow ps pc cnt w (windowEnd (k * k) k w)) count) ∧
    cache_friendly_sieve (k * k) = .ok ((Finset.Icc 2 (k * k)).filter Nat.Prime).card ∧
    parallel_sieve (k * k) = .ok ((Finset.Icc 2 (k * k)).filter Nat.Prime).card ∧
    cache_friendly_sieve 49 = .ok 15 ∧ parallel_sieve 49 = .ok 15 := by
  obtain ⟨hw, hhead, hlast, hend, hkk⟩ := square_windows k hk
  have hsqrt : Nat.sqrt (k * k) = k := Nat.sqrt_eq k
  have hmark := square_last_marked k hk
  have hidx : k - 1 ≤ k * k - (k * k - k + 1) := by omega
  refine ⟨hsqrt, ?_, ?_, hw, hhead, ?_, hlast, hend, ?_, ?_, ?_, ?_, ?_⟩
  · obtain ⟨buf, hbase⟩ := parallelBase_spec (k * k)
    rw [hsqrt, ← primeList_length] at hbase
    refine ⟨_, hbase, basePrimes_count k, ?_⟩
    obtain ⟨seg, hseg, -, hx⟩ := parallelSegment_spec (k * k) k (primeList 2 (k + 1 - 2))
      (k * k - k + 1) (basePrimes_pos k)
    refine ⟨seg, hseg, ?_⟩
    rw [hx (k - 1) (by rw [hend]; exact hidx), hmark]
  · have hbase := friendlyBase_eq (k * k)
    rw [hsqrt, ← primeList_length] at hbase
    refine ⟨_, hbase, basePrimes_count k, ?_⟩
    obtain ⟨seg, hseg, -, hx⟩ := friendlySegment_spec (primeList 2 (k + 1 - 2))
      (k * k - k + 1) (k * k) (basePrimes_pos k)
    refine ⟨seg, hseg, ?_⟩
    rw [hx (k - 1) hidx, hmark]
  · intro w hwm
    rw [hw, List.mem_range'] at hwm
    obtain ⟨i, -, rfl⟩ := hwm
    omega
  · intro ps pc count
    exact windowLoop_visits (k * k) k ps pc count (Or.inl (by omega))
  · rw [cache_friendly_sieve_eq, primesFrom_two]
  · rw [parallel_sieve_eq, primesFrom_two]
  · rw [cache_friendly_sieve_eq, primesFrom_fortynine]
  · rw [parallel_sieve_eq, primesFrom_fortynine]

theorem C7_perfect_square_witness :
    2 ≤ 7 ∧ Nat.sqrt (7 * 7) = 7 ∧
    parallelWindows (7 * 7) 7 = List.range' (7 + 1) (7 - 1) 7 ∧
    cache_friendly_sieve (7 * 7) = .ok ((Finset.Icc 2 (7 * 7)).filter Nat.Prime).card ∧
    parallel_sieve (7 * 7) = .ok ((Finset.Icc 2 (7 * 7)).filter Nat.Prime).card :=
  have h := C7_perfect_square 7 (by decide)
  ⟨by decide, h.1, h.2.2.2.1, h.2.2.2.2.2.2.2.2.2.1, h.2.2.2.2.2.2.2.2.2.2.1⟩

theorem forall₂_windows {ps : List Nat} (hpos : ∀ p ∈ ps, 1 ≤ p) (ws : List (Nat × Nat)) :
    List.Forall₂ (fun w c => friendlyWindow ps ps.length 0 w.1 w.2 = .ok c) ws
      (ws.map (fun w => survivors ps w.1 (w.2 - w.1 + 1))) := by
  induction ws with
  | nil => exact List.Forall₂.nil
  | cons w rest ih =>
    refine List.Forall₂.cons ?_ ih
    rw [friendlyWindow_spec ps 0 w.1 w.2 hpos, Nat.zero_add]

/-- C8: for every n ≥ 2 and every list of consecutive non-empty windows that
starts at limit + 1 and ends at n, every window's count (the body of the window
loop of cache_friendly_sieve run on a zero count) is returned, and the counts
sum to the count of the single window [limit + 1, n]. -/
theorem C8_partition_invariance (n : Nat) (hn : 2 ≤ n) (ws : List (Nat × Nat))
    (hws : ConsecutiveWindows (Nat.sqrt n + 1) n ws) :
    ∃ (st : Collect) (counts : List Nat) (total : Nat),
      friendlyBase n = .ok st ∧
      List.Forall₂
        (fun w c => friendlyWindow st.primes st.prime_count 0 w.1 w.2 = .ok c) ws counts ∧
      friendlyWindow st.primes st.prime_count 0 (Nat.sqrt n + 1) n = .ok total ∧
      counts.sum = total := by
  have hbase := friendlyBase_eq n
  rw [← primeList_length] at hbase
  have hle := sqrt_succ_le n hn
  refine ⟨_, _, _, hbase, forall₂_windows (basePrimes_pos _) ws,
    friendlyWindow_spec _ 0 _ _ (basePrimes_pos _), ?_⟩
  rw [partition_sum _ n ws _ hws, Nat.zero_add]
  congr 1
  omega

theorem C8_partition_invariance_witness :
    2 ≤ 10 ∧ ConsecutiveWindows (Nat.sqrt 10 + 1) 10 [(4, 4), (5, 8), (9, 10)] ∧
    ∃ (st : Collect) (counts : List Nat) (total : Nat),
      friendlyBase 10 = .ok st ∧
      List.Forall₂
        (fun w c => friendlyWindow st.primes st.prime_count 0 w.1 w.2 = .ok c)
        [(4, 4), (5, 8), (9, 10)] counts ∧
      friendlyWindow st.primes st.prime_count 0 (Nat.sqrt 10 + 1) 10 = .ok total ∧
      counts.sum = total :=
  have hws : ConsecutiveWindows (Nat.sqrt 10 + 1) 10 [(4, 4), (5, 8), (9, 10)] := by
    rw [sqrt_ten]
    simp [ConsecutiveWindows]
  ⟨by decide, hws, C8_partition_invariance 10 (by decide) _ hws⟩


theorem startIdx_ceil (s p : Nat) (hs : 1 ≤ s) (hp : 1 ≤ p) :
    startIdx s p = ⌈(s : ℚ) / (p : ℚ)⌉₊ * p := by
  obtain ⟨-, hge, hlt⟩ := firstMultiple_spec s p hp
  unfold startIdx
  congr 1
  symm
  have hq : (s + p - 1) / p ≠ 0 := by
    intro h0
    rw [h0] at hge
    omega
  have hpq : (0 : ℚ) < (p : ℚ) := by exact_mod_cast hp
  rw [Nat.ceil_eq_iff hq]
  constructor
  · rw [lt_div_iff₀ hpq]
    have h1 : ((s + p - 1) / p - 1) * p < s := by
      rw [Nat.sub_mul]
      omega
    exact_mod_cast h1
  · rw [div_le_iff₀ hpq]
    exact_mod_cast hge

/-- C12: for every window start s ≥ 1 and base prime p ≥ 1, the expression
((s + p - 1) / p) * p equals ceil(s / p) * p and is the smallest multiple of p
that is ≥ s; start_idx - window_start and marker[k] are the same number, the
smallest offset i ≥ 0 with p dividing s + i, and that offset is below p. -/
theorem C12_first_multiple (s p : Nat) (hs : 1 ≤ s) (hp : 1 ≤ p) :
    startIdx s p = ⌈(s : ℚ) / (p : ℚ)⌉₊ * p ∧
    p ∣ startIdx s p ∧ s ≤ startIdx s p ∧
    (∀ m, p ∣ m → s ≤ m → startIdx s p ≤ m) ∧
    markerOffset s p = startIdx s p - s ∧
    p ∣ s + markerOffset s p ∧
    (∀ i, p ∣ s + i → markerOffset s p ≤ i) ∧
    markerOffset s p < p := by
  obtain ⟨hd, hge, hlt⟩ := firstMultiple_spec s p hp
  have hoff : ∀ i, p ∣ s + i → markerOffset s p ≤ i := fun i hi =>
    ((offset_dvd_iff s p i hp).2 hi).1
  refine ⟨startIdx_ceil s p hs hp, hd, hge, ?_, rfl, ?_, hoff, ?_⟩
  · intro m hm hsm
    have := hoff (m - s) (by rw [Nat.add_sub_cancel' hsm]; exact hm)
    unfold markerOffset at this
    unfold startIdx
    omega
  · unfold markerOffset
    rw [Nat.add_sub_cancel' hge]
    exact hd
  · unfold markerOffset
    omega

theorem C12_first_multiple_witness :
    1 ≤ 10 ∧ 1 ≤ 3 ∧ startIdx 10 3 = ⌈((10 : Nat) : ℚ) / ((3 : Nat) : ℚ)⌉₊ * 3 ∧
    3 ∣ startIdx 10 3 ∧ 10 ≤ startIdx 10 3 ∧ markerOffset 10 3 < 3 :=
  have h := C12_first_multiple 10 3 (by decide) (by decide)
  ⟨by decide, by decide, h.1, h.2.1, h.2.2.1, h.2.2.2.2.2.2.2⟩

theorem small_range_zero (n : Nat) (h : n < 2) : primesFrom 2 (n + 1 - 2) = 0 := by
  have : n + 1 - 2 = 0 := by omega
  rw [this, primesFrom_zero]

/-- C13 as amended: for N = 0 and N = 1 no sieve signals an error; each returns
the count 0. -/
theorem C13_small_range_returns_zero (n : Nat) (h : n < 2) :
    cache_unfriendly_sieve n = .ok 0 ∧ cache_friendly_sieve n = .ok 0 ∧
      parallel_sieve n = .ok 0 := by
  rw [cache_unfriendly_sieve_eq, cache_friendly_sieve_eq, parallel_sieve_eq,
    small_range_zero n h]
  exact ⟨rfl, rfl, rfl⟩

theorem C13_small_range_returns_zero_witness :
    0 < 2 ∧ cache_unfriendly_sieve 0 = .ok 0 ∧ cache_friendly_sieve 0 = .ok 0 ∧
      parallel_sieve 0 = .ok 0 :=
  ⟨by decide, C13_small_range_returns_zero 0 (by decide)⟩

/-- C13 fails as stated: at N = 1 every sieve returns the plain count 0, not an error. -/
theorem C13_no_invalid_range_error :
    cache_unfriendly_sieve 1 = .ok 0 ∧ cache_friendly_sieve 1 = .ok 0 ∧
      parallel_sieve 1 = .ok 0 ∧
      ¬ (∃ e, cache_unfriendly_sieve 1 = .error e) ∧
      ¬ (∃ e, cache_friendly_sieve 1 = .error e) ∧
      ¬ (∃ e, parallel_sieve 1 = .error e) := by
  have h : primesFrom 2 (1 + 1 - 2) = 0 := small_range_zero 1 (by decide)
  rw [cache_unfriendly_sieve_eq, cache_friendly_sieve_eq, parallel_sieve_eq, h]
  simp


theorem primesFrom_Icc (s e : Nat) (h : s ≤ e) :
    primesFrom s (e - s + 1) = ((Finset.Icc s e).filter Nat.Prime).card := by
  have hI : Finset.Ico s (s + (e - s + 1)) = Finset.Icc s e := by
    ext x
    simp only [Finset.mem_Ico, Finset.mem_Icc]
    omega
  rw [primesFrom_eq_card, hI]

/-- C16: for every n ≥ 2 with limit = floor(sqrt n) and every window [s, e] with
limit < s ≤ e ≤ n, the segment marked with every base prime has position i
(i ≤ e - s) unmarked exactly when s + i is prime, and the window's count is the
number of primes in [s, e]; the same holds for the buffer and the count of the
window that parallel_sieve starts at s. -/
theorem C16_window_sound_complete (n : Nat) (_hn : 2 ≤ n) (s e : Nat)
    (hs : Nat.sqrt n < s) (hse : s ≤ e) (hen : e ≤ n) :
    (∃ st seg, friendlyBase n = .ok st ∧
      friendlySegment st.primes st.prime_count s e = .ok seg ∧
      seg.length = e - s + 1 ∧
      (∀ i, i ≤ e - s → (seg[i]? = some false ↔ Nat.Prime (s + i))) ∧
      (∀ i, i ≤ e - s → (seg[i]? = some true ↔ ¬ Nat.Prime (s + i))) ∧
      friendlyWindow st.primes st.prime_count 0 s e =
        .ok ((Finset.Icc s e).filter Nat.Prime).card) ∧
    (∃ base seg, parallelBase n = .ok base ∧
      parallelSegment n (Nat.sqrt n) base.n_factor base.factor s = .ok seg ∧
      (∀ i, i ≤ windowEnd n (Nat.sqrt n) s - s →
        (seg[i]? = some false ↔ Nat.Prime (s + i))) ∧
      (∀ i, i ≤ windowEnd n (Nat.sqrt n) s - s →
        (seg[i]? = some true ↔ ¬ Nat.Prime (s + i))) ∧
      parallelWindow n (Nat.sqrt n) base.n_factor base.factor 0 s =
        .ok ((Finset.Icc s (windowEnd n (Nat.sqrt n) s)).filter Nat.Prime).card) := by
  have hlt := Nat.lt_succ_sqrt n
  have hl : 1 ≤ Nat.sqrt n := Nat.sqrt_pos.2 (by omega)
  obtain ⟨hw1, hw2, hw3⟩ := windowEnd_bounds n (Nat.sqrt n) s hl (by omega)
  constructor
  · have hbase := friendlyBase_eq n
    rw [← primeList_length] at hbase
    obtain ⟨seg, hseg, hlen, hx⟩ := friendlySegment_spec (primeList 2 (Nat.sqrt n + 1 - 2))
      s e (basePrimes_pos _)
    have hval : ∀ i, i ≤ e - s → seg[i]? = some (!decide (Nat.Prime (s + i))) := by
      intro i hi
      rw [hx i hi, basePrimes_any n (Nat.sqrt n) (s + i) hlt (by omega) (by omega)]
    refine ⟨_, seg, hbase, hseg, hlen, ?_, ?_, ?_⟩
    · intro i hi
      rw [hval i hi]
      simp
    · intro i hi
      rw [hval i hi]
      simp
    · rw [friendlyWindow_spec _ 0 s e (basePrimes_pos _), Nat.zero_add,
        survivors_basePrimes n (Nat.sqrt n) _ _ hlt hs (by omega), primesFrom_Icc s e hse]
  · obtain ⟨buf, hbase⟩ := parallelBase_spec n
    rw [← primeList_length] at hbase
    obtain ⟨seg, hseg, -, hx⟩ := parallelSegment_spec n (Nat.sqrt n)
      (primeList 2 (Nat.sqrt n + 1 - 2)) s (basePrimes_pos _)
    have hval : ∀ i, i ≤ windowEnd n (Nat.sqrt n) s - s →
        seg[i]? = some (!decide (Nat.Prime (s + i))) := by
      intro i hi
      rw [hx i hi, basePrimes_any n (Nat.sqrt n) (s + i) hlt (by omega) (by omega)]
    refine ⟨_, seg, hbase, hseg, ?_, ?_, ?_⟩
    · intro i hi
      rw [hval i hi]
      simp
    · intro i hi
      rw [hval i hi]
      simp
    · rw [parallelWindow_spec n (Nat.sqrt n) _ 0 s (basePrimes_pos _), Nat.zero_add]
      unfold windowSurvivors
      rw [survivors_basePrimes n (Nat.sqrt n) _ _ hlt hs (by omega), primesFrom_Icc s _ hw1]

theorem C16_window_sound_complete_witness :
    2 ≤ 10 ∧ Nat.sqrt 10 < 7 ∧ 7 ≤ 9 ∧ 9 ≤ 10 ∧
    ∃ st seg, friendlyBase 10 = .ok st ∧
      friendlySegment st.primes st.prime_count 7 9 = .ok seg ∧
      seg.length = 9 - 7 + 1 ∧
      (∀ i, i ≤ 9 - 7 → (seg[i]? = some false ↔ Nat.Prime (7 + i))) ∧
      (∀ i, i ≤ 9 - 7 → (seg[i]? = some true ↔ ¬ Nat.Prime (7 + i))) ∧
      friendlyWindow st.primes st.prime_count 0 7 9 =
        .ok ((Finset.Icc 7 9).filter Nat.Prime).card :=
  have hs : Nat.sqrt 10 < 7 := by rw [sqrt_ten]; decide
  ⟨by decide, hs, by decide, by decide,
    (C16_window_sound_complete 10 (by decide) 7 9 hs (by decide) (by decide)).1⟩

/-- C17: for every n ≥ 2, the base phase of cache_friendly_sieve and the
single-pass base phase of parallel_sieve both return, with the same base-prime
list in the same order, and after the former count = prime_count = the length
of that list. -/
theorem C17_base_phases_agree (n : Nat) (_hn : 2 ≤ n) :
    ∃ st base, friendlyBase n = .ok st ∧ parallelBase n = .ok base ∧
      st.primes = base.factor ∧ st.count = st.prime_count ∧
      st.prime_count = st.primes.length ∧ st.prime_count = base.n_factor ∧
      st.count = base.count := by
  obtain ⟨buf, hbase⟩ := parallelBase_spec n
  exact ⟨_, _, friendlyBase_eq n, hbase, rfl, rfl, (primeList_length _ _).symm, rfl, rfl⟩

theorem C17_base_phases_agree_witness :
    2 ≤ 49 ∧ ∃ st base, friendlyBase 49 = .ok st ∧ parallelBase 49 = .ok base ∧
      st.primes = base.factor ∧ st.count = st.prime_count ∧
      st.prime_count = st.primes.length ∧ st.prime_count = base.n_factor ∧
      st.count = base.count :=
  ⟨by decide, C17_base_phases_agree 49 (by decide)⟩

theorem stride_form (i step j : Nat) :
    (i ≤ j ∧ step ∣ j - i) ↔ ∃ k, j = i + k * step := by
  constructor
  · rintro ⟨h1, c, hc⟩
    exact ⟨c, by rw [Nat.mul_comm c step, ← hc]; omega⟩
  · rintro ⟨k, rfl⟩
    exact ⟨Nat.le_add_right _ _, by rw [Nat.add_sub_cancel_left]; exact Dvd.intro_left _ rfl⟩

/-- C19: for every buffer, i, step ≥ 1 and limit below the buffer length, mark
returns i and a buffer of the same length; every index that is not of the form
i + k * step with i ≤ j ≤ limit is unchanged; no flag that was set is cleared;
and when i > limit the buffer is unchanged. -/
theorem C19_mark_frame (composite : List Bool) (i step limit : Nat)
    (hstep : 1 ≤ step) (hlimit : limit < composite.length) :
    ∃ out, mark composite i step limit = .ok (out, i) ∧
      out.length = composite.length ∧
      (∀ j, (¬ ∃ k, j = i + k * step ∧ j ≤ limit) → out[j]? = composite[j]?) ∧
      (∀ j : Nat, j < i → out[j]? = composite[j]?) ∧
      (∀ j : Nat, limit < j → out[j]? = composite[j]?) ∧
      (∀ j : Nat, composite[j]? = some true → out[j]? = some true) ∧
      (limit < i → out = composite) := by
  obtain ⟨out, h1, h2, h3⟩ := mark_spec composite i step limit hstep hlimit
  have hframe : ∀ j, ¬ (i ≤ j ∧ j ≤ limit ∧ step ∣ j - i) → out[j]? = composite[j]? := by
    intro j hj
    rw [h3 j, if_neg hj]
  refine ⟨out, h1, h2, ?_, ?_, ?_, ?_, ?_⟩
  · intro j hj
    apply hframe
    rintro ⟨a, b, c⟩
    obtain ⟨k, hk⟩ := (stride_form i step j).1 ⟨a, c⟩
    exact hj ⟨k, hk, b⟩
  · intro j hj
    exact hframe j (by omega)
  · intro j hj
    exact hframe j (by omega)
  · intro j hj
    rw [h3 j]
    split_ifs
    · rfl
    · exact hj
  · intro hi
    apply List.ext_getElem?
    intro j
    exact hframe j (by omega)

theorem C19_mark_frame_witness :
    1 ≤ 2 ∧ 3 < [false, true, false, false, false].length ∧
    ∃ out, mark [false, true, false, false, false] 0 2 3 = .ok (out, 0) ∧
      out.length = [false, true, false, false, false].length :=
  have h := C19_mark_frame [false, true, false, false, false] 0 2 3 (by decide) (by decide)
  ⟨by decide, by decide, h.imp (fun _ hx => ⟨hx.1, hx.2.1⟩)⟩

/-- C20: for every n ≥ 2 with limit = floor(sqrt n), the base phase of
parallel_sieve returns without writing outside the limit entries of factor and
records n_factor ≤ limit - 1 primes; the base phase of cache_friendly_sieve
returns without writing outside primes and records prime_count ≤ limit primes. -/
theorem C20_base_lists_fit (n : Nat) (_hn : 2 ≤ n) :
    (∃ base, parallelBase n = .ok base ∧ base.n_factor ≤ Nat.sqrt n - 1 ∧
      base.factor.length = base.n_factor) ∧
    (∃ st, friendlyBase n = .ok st ∧ st.prime_count ≤ Nat.sqrt n ∧
      st.primes.length = st.prime_count) := by
  obtain ⟨buf, hbase⟩ := parallelBase_spec n
  have hle := primesFrom_le_len 2 (Nat.sqrt n + 1 - 2)
  exact ⟨⟨_, hbase, by simp only; omega, primeList_length _ _⟩,
    ⟨_, friendlyBase_eq n, by simp only; omega, primeList_length _ _⟩⟩

theorem C20_base_lists_fit_witness :
    2 ≤ 49 ∧
    (∃ base, parallelBase 49 = .ok base ∧ base.n_factor ≤ Nat.sqrt 49 - 1 ∧
      base.factor.length = base.n_factor) ∧
    (∃ st, friendlyBase 49 = .ok st ∧ st.prime_count ≤ Nat.sqrt 49 ∧
      st.primes.length = st.prime_count) :=
  ⟨by decide, C20_base_lists_fit 49 (by decide)⟩


theorem fits_long_max : Fits (some LONG_MAX) LONG_MAX := by
  intro b hb
  rw [Option.some.inj hb]

theorem fits_none (m : Nat) : Fits none m := by
  intro b hb
  exact absurd hb (by simp)

theorem four_le_long_max : 4 ≤ LONG_MAX := by
  unfold LONG_MAX
  norm_num

/-- C14: for every n with 2 ≤ n and n + floor(sqrt n) ≤ 2^63 - 1, the three
sieves evaluated with every `long` result checked against [0, 2^63 - 1] raise
no range fault and return the count that the evaluation over unbounded integers
returns; a value in that range is unchanged by reduction modulo 2^64. -/
theorem C14_no_overflow (n : Nat) (hn : 2 ≤ n) (hguard : n + Nat.sqrt n ≤ LONG_MAX) :
    ∃ c, cache_unfriendly_sieve n = .ok c ∧ cache_friendly_sieve n = .ok c ∧
      parallel_sieve n = .ok c ∧
      (∃ log, cache_unfriendly_sieveChecked (some LONG_MAX) n = .ok (c, log)) ∧
      (∃ log, cache_friendly_sieveChecked (some LONG_MAX) n = .ok (c, log)) ∧
      (∃ log, parallel_sieveChecked (some LONG_MAX) n = .ok (c, log)) ∧
      (∀ x, chk (some LONG_MAX) x = .ok x → x % 2 ^ 64 = x) := by
  obtain ⟨l1, h1, -⟩ := cache_unfriendly_sieveChecked_spec (some LONG_MAX) n LONG_MAX
    (by omega) fits_long_max hguard
  obtain ⟨l2, h2, -⟩ := cache_friendly_sieveChecked_spec (some LONG_MAX) n LONG_MAX hn
    fits_long_max four_le_long_max hguard
  obtain ⟨l3, h3, -⟩ := parallel_sieveChecked_spec (some LONG_MAX) n LONG_MAX hn
    fits_long_max hguard
  refine ⟨_, cache_unfriendly_sieve_eq n, cache_friendly_sieve_eq n, parallel_sieve_eq n,
    ⟨l1, h1⟩, ⟨l2, h2⟩, ⟨l3, h3⟩, ?_⟩
  intro x hx
  apply Nat.mod_eq_of_lt
  unfold chk at hx
  simp only at hx
  by_cases hle : x ≤ LONG_MAX
  · unfold LONG_MAX at hle
    omega
  · rw [if_neg hle] at hx
    exact absurd hx (by simp)

theorem C14_no_overflow_witness :
    2 ≤ 10 ∧ 10 + Nat.sqrt 10 ≤ LONG_MAX ∧
    ∃ c, cache_unfriendly_sieve 10 = .ok c ∧ cache_friendly_sieve 10 = .ok c ∧
      parallel_sieve 10 = .ok c ∧
      (∃ log, cache_unfriendly_sieveChecked (some LONG_MAX) 10 = .ok (c, log)) ∧
      (∃ log, cache_friendly_sieveChecked (some LONG_MAX) 10 = .ok (c, log)) ∧
      (∃ log, parallel_sieveChecked (some LONG_MAX) 10 = .ok (c, log)) ∧
      (∀ x, chk (some LONG_MAX) x = .ok x → x % 2 ^ 64 = x) :=
  have hguard : 10 + Nat.sqrt 10 ≤ LONG_MAX := by
    rw [sqrt_ten]
    unfold LONG_MAX
    norm_num
  ⟨by decide, hguard, C14_no_overflow 10 (by decide) hguard⟩

/-- C18 as amended: for every n ≥ 2 the three sieves, run with every call of
mark logged, return their counts without an out-of-bounds access, and every
logged call has step ≥ 2 and limit argument ≤ buffer length - 1; at line 31 the
start index i * i is ≤ n for a buffer of n + 1 entries; at lines 92 and 153 the
limit argument is segment_size - 1, resp. ≤ limit - 1 for a buffer of limit + 1
entries, and the start offset is below the step. -/
theorem C18_mark_calls_in_bounds (n : Nat) (hn : 2 ≤ n) :
    (∃ count log, cache_unfriendly_sieveChecked none n = .ok (count, log) ∧
      cache_unfriendly_sieve n = .ok count ∧
      ∀ c ∈ log, CallOK n (Nat.sqrt n) c ∧ c.line = 31) ∧
    (∃ count log, cache_friendly_sieveChecked none n = .ok (count, log) ∧
      cache_friendly_sieve n = .ok count ∧
      ∀ c ∈ log, CallOK n (Nat.sqrt n) c ∧ (c.line = 60 ∨ c.line = 92)) ∧
    (∃ count log, parallel_sieveChecked none n = .ok (count, log) ∧
      parallel_sieve n = .ok count ∧
      ∀ c ∈ log, CallOK n (Nat.sqrt n) c ∧ (c.line = 124 ∨ c.line = 153)) := by
  obtain ⟨l1, h1, g1⟩ := cache_unfriendly_sieveChecked_spec none n (max 4 (n + Nat.sqrt n))
    (by omega) (fits_none _) (le_max_right _ _)
  obtain ⟨l2, h2, g2⟩ := cache_friendly_sieveChecked_spec none n (max 4 (n + Nat.sqrt n)) hn
    (fits_none _) (le_max_left _ _) (le_max_right _ _)
  obtain ⟨l3, h3, g3⟩ := parallel_sieveChecked_spec none n (max 4 (n + Nat.sqrt n)) hn
    (fits_none _) (le_max_right _ _)
  exact ⟨⟨_, l1, h1, cache_unfriendly_sieve_eq n, g1⟩,
    ⟨_, l2, h2, cache_friendly_sieve_eq n, g2⟩,
    ⟨_, l3, h3, parallel_sieve_eq n, g3⟩⟩

theorem C18_mark_calls_in_bounds_witness :
    2 ≤ 10 ∧
    ∃ count log, cache_unfriendly_sieveChecked none 10 = .ok (count, log) ∧
      cache_unfriendly_sieve 10 = .ok count ∧
      ∀ c ∈ log, CallOK 10 (Nat.sqrt 10) c ∧ c.line = 31 :=
  ⟨by decide, (C18_mark_calls_in_bounds 10 (by decide)).1⟩

/-- C18 fails as stated: at n = 10 the last window [10, 10] has a segment of one
entry, and both segmented sieves call mark for the base prime 3 with start
offset 2, which is outside [0, segment_size - 1] = [0, 0] and above
window_end - window = 0. -/
theorem C18_start_offset_outside_window :
    cache_friendly_sieveChecked none 10 =
      .ok (4, [⟨92, 3, 0, 2, 2⟩, ⟨92, 3, 2, 3, 2⟩, ⟨92, 3, 1, 2, 2⟩, ⟨92, 3, 2, 3, 2⟩,
               ⟨92, 1, 0, 2, 0⟩, ⟨92, 1, 2, 3, 0⟩]) ∧
    parallel_sieveChecked none 10 =
      .ok (4, [⟨124, 4, 4, 2, 3⟩, ⟨124, 4, 9, 3, 3⟩, ⟨153, 4, 0, 2, 2⟩, ⟨153, 4, 2, 3, 2⟩,
               ⟨153, 4, 1, 2, 2⟩, ⟨153, 4, 2, 3, 2⟩, ⟨153, 4, 0, 2, 0⟩, ⟨153, 4, 2, 3, 0⟩]) ∧
    ¬ ((⟨92, 1, 2, 3, 0⟩ : MarkCall).i ≤ (⟨92, 1, 2, 3, 0⟩ : MarkCall).len - 1) ∧
    ¬ ((⟨153, 4, 2, 3, 0⟩ : MarkCall).i ≤ (⟨153, 4, 2, 3, 0⟩ : MarkCall).limit) := by
  refine ⟨?_, ?_, by decide, by decide⟩
  · unfold cache_friendly_sieveChecked friendlyBaseChecked
    rw [sqrt_ten]
    decide!
  · unfold parallel_sieveChecked parallelBaseChecked
    rw [sqrt_ten]
    decide!


theorem markLoop_fuel (step limit : Nat) (hstep : 1 ≤ step) :
    ∀ (fuel : Nat) (comp : List Bool) (j : Nat), limit + 1 - j < fuel →
      markLoop fuel comp j step limit ≠ .error .outOfFuel := by
  intro fuel
  induction fuel with
  | zero => intro comp j h; omega
  | succ fuel ih =>
    intro comp j hfuel
    unfold markLoop
    by_cases hj : j ≤ limit
    · by_cases hl : j < comp.length
      · simp only [hj, hl, if_true]
        exact ih (comp.set j true) (j + step) (by omega)
      · simp [hj, hl]
    · simp [hj]

theorem mark_terminates (comp : List Bool) (i step limit : Nat) (hstep : 1 ≤ step) :
    mark comp i step limit ≠ .error .outOfFuel := by
  have h := markLoop_fuel step limit hstep (limit + 1 - i + 1) comp i (by omega)
  unfold mark
  cases hl : markLoop (limit + 1 - i + 1) comp i step limit with
  | ok out => simp
  | error e =>
    rw [hl] at h
    simpa using h

theorem small_checked (n : Nat) (hn : n < 2) :
    cache_unfriendly_sieveChecked none n = .ok (0, []) ∧
      cache_friendly_sieveChecked none n = .ok (0, []) ∧
      parallel_sieveChecked none n = .ok (0, []) := by
  obtain rfl | rfl : n = 0 ∨ n = 1 := by omega
  · unfold cache_unfriendly_sieveChecked cache_friendly_sieveChecked friendlyBaseChecked
      parallel_sieveChecked parallelBaseChecked
    rw [Nat.sqrt_zero]
    decide
  · unfold cache_unfriendly_sieveChecked cache_friendly_sieveChecked friendlyBaseChecked
      parallel_sieveChecked parallelBaseChecked
    rw [Nat.sqrt_one]
    decide

theorem windows_increasing (n : Nat) :
    (parallelWindows n (Nat.sqrt n)).Pairwise (· < ·) ∧
      ∀ w ∈ parallelWindows n (Nat.sqrt n), Nat.sqrt n < w ∧ w ≤ n := by
  by_cases h : Nat.sqrt n + 1 ≤ n
  · have hl : 1 ≤ Nat.sqrt n := by
      rcases sqrt_window_case n with h1 | h1
      · exact h1
      · omega
    obtain ⟨c, -, hW, -, H2⟩ := parallelWindows_shape n (Nat.sqrt n) hl h
    rw [hW]
    refine ⟨List.pairwise_lt_range' (Nat.sqrt n + 1) c (Nat.sqrt n) hl, ?_⟩
    intro w hw
    rw [List.mem_range'] at hw
    obtain ⟨i, hi, rfl⟩ := hw
    exact ⟨by omega, (window_index_facts n (Nat.sqrt n) c i H2 hi).1⟩
  · have : parallelWindows n (Nat.sqrt n) = [] := by
      unfold parallelWindows
      rw [if_neg h]
    rw [this]
    exact ⟨List.Pairwise.nil, by simp⟩

theorem steps_of_log {n limit : Nat} {log : List MarkCall} {P : MarkCall → Prop}
    (h : ∀ c ∈ log, CallOK n limit c ∧ P c) : ∀ c ∈ log, 2 ≤ c.step :=
  fun c hc => (h c hc).1.1

/-- C21: for every n ≥ 0 the three sieves return a count (no loop runs out of
fuel); mark never diverges when step ≥ 1, and every call of mark the sieves
make has step ≥ 2; the window stride limit is ≥ 1 whenever limit + 1 ≤ n, for
n = 0 the stride is 0 and there is no window; the window starts are strictly
increasing and ≤ n, and the loop of cache_friendly_sieve visits exactly them.
With step 0 the embedded mark does run out of fuel. -/
theorem C21_termination (n : Nat) :
    (∃ c, cache_unfriendly_sieve n = .ok c) ∧
    (∃ c, cache_friendly_sieve n = .ok c) ∧
    (∃ c, parallel_sieve n = .ok c) ∧
    (∀ (comp : List Bool) (i step limit : Nat), 1 ≤ step →
      mark comp i step limit ≠ .error .outOfFuel) ∧
    (∃ count log, cache_unfriendly_sieveChecked none n = .ok (count, log) ∧
      ∀ c ∈ log, 2 ≤ c.step) ∧
    (∃ count log, cache_friendly_sieveChecked none n = .ok (count, log) ∧
      ∀ c ∈ log, 2 ≤ c.step) ∧
    (∃ count log, parallel_sieveChecked none n = .ok (count, log) ∧
      ∀ c ∈ log, 2 ≤ c.step) ∧
    (Nat.sqrt n + 1 ≤ n → 1 ≤ Nat.sqrt n) ∧
    (Nat.sqrt 0 = 0 ∧ parallelWindows 0 (Nat.sqrt 0) = [] ∧
      ∀ (ps : List Nat) (pc count : Nat),
        windowLoop (0 + 1) 0 (Nat.sqrt 0) ps pc count (Nat.sqrt 0 + 1) = .ok count) ∧
    (parallelWindows n (Nat.sqrt n)).Pairwise (· < ·) ∧
    (∀ w ∈ parallelWindows n (Nat.sqrt n), Nat.sqrt n < w ∧ w ≤ n) ∧
    (∀ (ps : List Nat) (pc count : Nat),
      windowLoop (n + 1) n (Nat.sqrt n) ps pc count (Nat.sqrt n + 1) =
        (parallelWindows n (Nat.sqrt n)).foldlM
          (fun cnt w => friendlyWindow ps pc cnt w (windowEnd n (Nat.sqrt n) w)) count) ∧
    mark [false] 0 0 0 = .error .outOfFuel := by
  have hlogs : (∃ count log, cache_unfriendly_sieveChecked none n = .ok (count, log) ∧
        ∀ c ∈ log, 2 ≤ c.step) ∧
      (∃ count log, cache_friendly_sieveChecked none n = .ok (count, log) ∧
        ∀ c ∈ log, 2 ≤ c.step) ∧
      (∃ count log, parallel_sieveChecked none n = .ok (count, log) ∧
        ∀ c ∈ log, 2 ≤ c.step) := by
    rcases Nat.lt_or_ge n 2 with hn | hn
    · obtain ⟨h1, h2, h3⟩ := small_checked n hn
      exact ⟨⟨0, [], h1, by simp⟩, ⟨0, [], h2, by simp⟩, ⟨0, [], h3, by simp⟩⟩
    · obtain ⟨l1, h1, g1⟩ := cache_unfriendly_sieveChecked_spec none n
        (max 4 (n + Nat.sqrt n)) (by omega) (fits_none _) (le_max_right _ _)
      obtain ⟨l2, h2, g2⟩ := cache_friendly_sieveChecked_spec none n
        (max 4 (n + Nat.sqrt n)) hn (fits_none _) (le_max_left _ _) (le_max_right _ _)
      obtain ⟨l3, h3, g3⟩ := parallel_sieveChecked_spec none n (max 4 (n + Nat.sqrt n)) hn
        (fits_none _) (le_max_right _ _)
      exact ⟨⟨_, l1, h1, steps_of_log g1⟩, ⟨_, l2, h2, steps_of_log g2⟩,
        ⟨_, l3, h3, steps_of_log g3⟩⟩
  obtain ⟨hinc, hle⟩ := windows_increasing n
  refine ⟨⟨_, cache_unfriendly_sieve_eq n⟩, ⟨_, cache_friendly_sieve_eq n⟩,
    ⟨_, parallel_sieve_eq n⟩, fun comp i step limit hs => mark_terminates comp i step limit hs,
    hlogs.1, hlogs.2.1, hlogs.2.2, ?_, ?_, hinc, hle,
    fun ps pc count => windowLoop_visits n (Nat.sqrt n) ps pc count (sqrt_window_case n),
    by decide⟩
  · intro h
    rcases sqrt_window_case n with h1 | h1
    · exact h1
    · omega
  · rw [Nat.sqrt_zero]
    refine ⟨rfl, by decide, ?_⟩
    intro ps pc count
    simp [windowLoop]

/-- C22: for n = 0 and n = 1 each of the three sieves returns the plain count 0;
the base phases record no prime, limit + 1 > n, there is no window and the
window loop returns the count unchanged. -/
theorem C22_zero_and_one (n : Nat) (hn : n < 2) :
    cache_unfriendly_sieve n = .ok 0 ∧ cache_friendly_sieve n = .ok 0 ∧
    parallel_sieve n = .ok 0 ∧
    friendlyBase n = .ok { primes := [], prime_count := 0, count := 0 } ∧
    (∃ b, parallelBase n = .ok b ∧ b.factor = [] ∧ b.n_factor = 0 ∧ b.count = 0) ∧
    n < Nat.sqrt n + 1 ∧
    parallelWindows n (Nat.sqrt n) = [] ∧
    (∀ (ps : List Nat) (pc count : Nat),
      windowLoop (n + 1) n (Nat.sqrt n) ps pc count (Nat.sqrt n + 1) = .ok count) := by
  have hsq := Nat.sqrt_le_self n
  have hlen : Nat.sqrt n + 1 - 2 = 0 := by omega
  have hgt : n < Nat.sqrt n + 1 := by
    rcases sqrt_window_case n with h | h
    · omega
    · exact h
  have hzero : primesFrom 2 (n + 1 - 2) = 0 := small_range_zero n hn
  refine ⟨?_, ?_, ?_, ?_, ?_, hgt, ?_, ?_⟩
  · rw [cache_unfriendly_sieve_eq, hzero]
  · rw [cache_friendly_sieve_eq, hzero]
  · rw [parallel_sieve_eq, hzero]
  · rw [friendlyBase_eq, hlen]
    rfl
  · obtain ⟨buf, hb⟩ := parallelBase_spec n
    rw [hlen] at hb
    exact ⟨_, hb, rfl, rfl, rfl⟩
  · unfold parallelWindows
    rw [if_neg (by omega)]
  · intro ps pc count
    unfold windowLoop
    rw [if_neg (by omega)]

theorem C22_zero_and_one_witness :
    1 < 2 ∧ cache_unfriendly_sieve 1 = .ok 0 ∧ cache_friendly_sieve 1 = .ok 0 ∧
    parallel_sieve 1 = .ok 0 ∧
    friendlyBase 1 = .ok { primes := [], prime_count := 0, count := 0 } ∧
    (∃ b, parallelBase 1 = .ok b ∧ b.factor = [] ∧ b.n_factor = 0 ∧ b.count = 0) ∧
    1 < Nat.sqrt 1 + 1 ∧
    parallelWindows 1 (Nat.sqrt 1) = [] ∧
    (∀ (ps : List Nat) (pc count : Nat),
      windowLoop (1 + 1) 1 (Nat.sqrt 1) ps pc count (Nat.sqrt 1 + 1) = .ok count) :=
  ⟨by decide, C22_zero_and_one 1 (by decide)⟩

end Sieve
